import Mathlib

/-!
Verification of the unishark `DefaultTestLoader` (src/unishark/loader.py).

The loader resolves a declarative test-selection configuration into sets of
fully-qualified test method names and loaded test cases.  The embedding below
translates the Python source into Lean:

* Python `str.split('.')` becomes `pySplit`, `str.startswith` becomes
  `pyStartsWith`, and `%r` formatting becomes `pyRepr`.
* `pyclbr` module introspection (an external capability) is a parameter
  `Env : String → List (String × ClbrObj)` mapping a full module name to its
  members, each either a class with its `methods` dict (name, line number) or
  some other object, mirroring what `pyclbr.readmodule_ex` returns.
* Python dicts become association lists with unique keys (`lookupA`, `setA`,
  `eraseA` model `d[k]`, `d[k] = v`, `del d[k]`); Python sets become
  duplicate-free lists built with `addToSet` / `pySet`.
* A raised exception becomes `PyResult.raise msg`; the tree-mutating
  deletion methods return the post-call tree together with an optional
  raised message, because the Python methods mutate `self._name_tree`
  in place and an exception leaves whatever state was reached.
-/

set_option autoImplicit false

namespace Unishark

/-- Python single-quote `repr` of a string, as used by `%r` formatting. -/
def pyRepr (s : String) : String := "\x27" ++ s ++ "\x27"

/-- Helper for `pySplit`: split a list of characters on a separator character.
`splitOnCharAux c "a.b" = [[a],[b]]`, and the result always has one more part
than there are separators, so `splitOnCharAux c [] = [[]]`. -/
def splitOnCharAux (c : Char) : List Char → List (List Char)
  | [] => [[]]
  | a :: rest =>
    let r := splitOnCharAux c rest
    if a = c then [] :: r
    else
      match r with
      | [] => [[a]]
      | h :: t => (a :: h) :: t

/-- Python `s.split('.')`: `"a.b" ↦ ["a","b"]`, `"a." ↦ ["a",""]`, `"" ↦ [""]`. -/
def pySplit (s : String) : List String :=
  (splitOnCharAux '.' s.data).map (fun l => String.mk l)

/-- Python `s.startswith(p)`. -/
def pyStartsWith (s p : String) : Bool :=
  p.data.isPrefixOf s.data

/-- Python `'.'.join((p, n)) if p else n` where `p` is an optional string:
`None` and the empty string are falsy.  This is the shape used at
loader.py lines 121, 162 and 252. -/
def joinPre : Option String → String → String
  | none, n => n
  | some p, n => if p = "" then n else p ++ "." ++ n

/-- Python truthiness of an optional string (`None` and `''` are falsy). -/
def optTruthy : Option String → Bool
  | none => false
  | some s => !(s == "")

/-- Result of a Python call: a value, or a raised exception message. -/
inductive PyResult (α : Type) where
  | ok (val : α)
  | raise (msg : String)
deriving DecidableEq, Repr

/-- A member of a `pyclbr` module-content dict: a class (with its `methods`
dict of method name to line number), or any other top-level object. -/
inductive ClbrObj where
  | cls (methods : List (String × Nat))
  | other
deriving DecidableEq, Repr

/-- The module-introspection capability (`pyclbr.readmodule_ex`): maps a full
dotted module name to the module's members. -/
abbrev Env := String → List (String × ClbrObj)

/-- Python dict lookup `d.get(k)` on a dict modelled as an association list
(first binding wins; dict keys are unique). -/
def lookupA {β : Type} (k : String) : List (String × β) → Option β
  | [] => none
  | p :: rest => if p.1 = k then some p.2 else lookupA k rest

/-- Python dict assignment `d[k] = v`: replace the binding in place, or append
a fresh key at the end (dicts preserve insertion order). -/
def setA {β : Type} (k : String) (v : β) : List (String × β) → List (String × β)
  | [] => [(k, v)]
  | p :: rest => if p.1 = k then (k, v) :: rest else p :: setA k v rest

/-- Python `del d[k]` (removes the unique binding of `k`). -/
def eraseA {β : Type} (k : String) : List (String × β) → List (String × β)
  | [] => []
  | p :: rest => if p.1 = k then rest else p :: eraseA k rest

/-- Python `set.add`: a no-op when the element is already present, otherwise
the element joins the set. -/
def addToSet (s : List String) (x : String) : List String :=
  if x ∈ s then s else s ++ [x]

/-- Python `set(l)`: collapse duplicates of a list. -/
def pySet (l : List String) : List String := l.foldl addToSet []

/-- The class level of a name tree: class name to set of method names
(loader.py lines 179–194). -/
abbrev ClsMap := List (String × List String)

/-- A name tree: module name to class name to set of method names
(loader.py lines 179–194). -/
abbrev Tree := List (String × ClsMap)

/-- `_get_cls_name_parts` (loader.py lines 136–141): split on `.` and demand
exactly 2 parts, else raise `ValueError`. -/
def _get_cls_name_parts (long_name : String) : PyResult (String × String) :=
  match pySplit long_name with
  | [a, b] => .ok (a, b)
  | _ => .raise (pyRepr long_name ++ " does not comply with: \"module.class\".")

/-- `_get_mth_name_parts` (loader.py lines 143–148): split on `.` and demand
exactly 3 parts, else raise `ValueError`. -/
def _get_mth_name_parts (long_name : String) : PyResult (String × String × String) :=
  match pySplit long_name with
  | [a, b, c] => .ok (a, b, c)
  | _ => .raise (pyRepr long_name ++ " does not comply with: \"module.class.method\".")

/-- `_inspect_module` (loader.py lines 160–163): read the module named
`pkg_name.mod_name` (or `mod_name` when the package is falsy). -/
def _inspect_module (env : Env) (pkg_name : Option String) (mod_name : String) :
    List (String × ClbrObj) :=
  env (joinPre pkg_name mod_name)

/-- `_get_classes_of_module` (loader.py lines 165–171): keep only the
`pyclbr.Class` members of the module content. -/
def _get_classes_of_module (module_content : List (String × ClbrObj)) :
    List (String × List (String × Nat)) :=
  module_content.filterMap (fun p =>
    match p.2 with
    | .cls ms => some (p.1, ms)
    | .other => none)

/-- Stable insertion step for sorting `(name, line)` pairs by line number. -/
def insertByNo (p : String × Nat) : List (String × Nat) → List (String × Nat)
  | [] => [p]
  | q :: rest => if p.2 < q.2 then p :: q :: rest else q :: insertByNo p rest

/-- Sort `(name, line)` pairs by line number (Python `sorted(keys, key=...)`). -/
def sortByNo (l : List (String × Nat)) : List (String × Nat) :=
  l.foldr insertByNo []

/-- `_get_method_names_by_class` (loader.py lines 173–177): method names of a
class sorted by declaration line, filtered to those starting with the
configured method name start (`self.method_prefix`, default `"test"`). -/
def _get_method_names_by_class (methodPref : String) (methods : List (String × Nat)) :
    List String :=
  ((sortByNo methods).map Prod.fst).filter (fun n => pyStartsWith n methodPref)

/-- Line 204 of loader.py:
`if filter_cls_names and long_cls_name not in filter_cls_names: continue`
(an empty filter set is falsy, so it disables filtering). -/
def fcSkip (filter_cls_names : Option (List String)) (long_cls_name : String) : Bool :=
  match filter_cls_names with
  | some f => !f.isEmpty && !(decide (long_cls_name ∈ f))
  | none => false

/-- Lines 209–214 of `_build_name_tree`: ensure the module and class entries
exist, then add every method name to the class's set. -/
def insertClsMths (t : Tree) (mod_name cls_name : String) (mth_names : List String) : Tree :=
  let t1 := match lookupA mod_name t with
    | none => setA mod_name ([] : ClsMap) t
    | some _ => t
  let cm := (lookupA mod_name t1).getD []
  let cm1 := match lookupA cls_name cm with
    | none => setA cls_name ([] : List String) cm
    | some _ => cm
  let s := (lookupA cls_name cm1).getD []
  let s1 := mth_names.foldl addToSet s
  setA mod_name (setA cls_name s1 cm1) t1

/-- Lines 202–214 of `_build_name_tree`: the body of the class loop.  Skip a
class the filter rejects or whose filtered method list is empty, otherwise
insert its methods. -/
def buildClsStep (methodPref : String) (filter_cls_names : Option (List String))
    (mod_name : String) (t : Tree) (p : String × List (String × Nat)) : Tree :=
  let long_cls_name := mod_name ++ "." ++ p.1
  if fcSkip filter_cls_names long_cls_name then t
  else
    let mth_names := _get_method_names_by_class methodPref p.2
    if mth_names = [] then t
    else insertClsMths t mod_name p.1 mth_names

/-- Lines 197–214 of `_build_name_tree`: the body of the module loop.
Introspect one module and run the class loop over its classes. -/
def buildModule (env : Env) (methodPref : String) (pkg_name : Option String)
    (filter_cls_names : Option (List String)) (t : Tree) (mod_name : String) : Tree :=
  let classes := _get_classes_of_module (_inspect_module env pkg_name mod_name)
  if classes = [] then t
  else classes.foldl (buildClsStep methodPref filter_cls_names mod_name) t

/-- `_build_name_tree` (loader.py lines 195–214): build a fresh tree from the
given module names. -/
def _build_name_tree (env : Env) (methodPref : String) (pkg_name : Option String)
    (mod_names : List String) (filter_cls_names : Option (List String)) : Tree :=
  mod_names.foldl (buildModule env methodPref pkg_name filter_cls_names) []

/-- The message of the module-level `ValueError` of the deletion methods
(loader.py lines 219 and 231). -/
def msgNotFoundTop (long mod_name : String) : String :=
  "Cannot exclude " ++ pyRepr long ++ ": " ++ pyRepr mod_name ++ " not found in modules list."

/-- The message of the inner-level `ValueError` of the deletion methods
(loader.py lines 222, 234 and 237). -/
def msgNotFoundIn (long missing container : String) : String :=
  "Cannot exclude " ++ pyRepr long ++ ": " ++ pyRepr missing ++ " not found in " ++
    pyRepr container ++ "."

/-- Python `set.remove` on a duplicate-free list. -/
def removeStr (x : String) : List String → List String
  | [] => []
  | y :: rest => if y = x then rest else y :: removeStr x rest

/-- `_del_cls_in_name_tree` (loader.py lines 216–226).  Returns the
`self._name_tree` state after the call, together with the raised message if
one of the existence checks failed. -/
def _del_cls_in_name_tree (t : Tree) (mod_name cls_name : String) : Tree × Option String :=
  let long_cls_name := mod_name ++ "." ++ cls_name
  match lookupA mod_name t with
  | none => (t, some (msgNotFoundTop long_cls_name mod_name))
  | some cm =>
    match lookupA cls_name cm with
    | none => (t, some (msgNotFoundIn long_cls_name cls_name mod_name))
    | some _ =>
      let cm1 := eraseA cls_name cm
      let t1 := setA mod_name cm1 t
      let t2 := if cm1 = [] then eraseA mod_name t1 else t1
      (t2, none)

/-- `_del_mth_in_name_tree` (loader.py lines 228–243).  Returns the
`self._name_tree` state after the call, together with the raised message if
one of the existence checks failed. -/
def _del_mth_in_name_tree (t : Tree) (mod_name cls_name mth_name : String) :
    Tree × Option String :=
  let long_mth_name := mod_name ++ "." ++ cls_name ++ "." ++ mth_name
  match lookupA mod_name t with
  | none => (t, some (msgNotFoundTop long_mth_name mod_name))
  | some cm =>
    match lookupA cls_name cm with
    | none => (t, some (msgNotFoundIn long_mth_name cls_name mod_name))
    | some s =>
      if mth_name ∈ s then
        let s1 := removeStr mth_name s
        let cm1 := setA cls_name s1 cm
        let cm2 := if s1 = [] then eraseA cls_name cm1 else cm1
        let t1 := setA mod_name cm2 t
        let t2 := if cm2 = [] then eraseA mod_name t1 else t1
        (t2, none)
      else (t, some (msgNotFoundIn long_mth_name mth_name cls_name))

/-- Worker of `_del_except_classes_in_name_tree`: delete each named class in
turn, stopping at the first raised exception. -/
def delExceptClassesGo : Tree → List String → Tree × Option String
  | t, [] => (t, none)
  | t, n :: rest =>
    match _get_cls_name_parts n with
    | .raise e => (t, some e)
    | .ok (m, c) =>
      match _del_cls_in_name_tree t m c with
      | (t1, none) => delExceptClassesGo t1 rest
      | (t1, some e) => (t1, some e)

/-- `_del_except_classes_in_name_tree` (loader.py lines 150–153): iterate over
`set(except_cls_names)` deleting each `module.class`. -/
def _del_except_classes_in_name_tree (t : Tree) (except_cls_names : List String) :
    Tree × Option String :=
  delExceptClassesGo t (pySet except_cls_names)

/-- Worker of `_del_except_methods_in_name_tree`: delete each named method in
turn, stopping at the first raised exception. -/
def delExceptMethodsGo : Tree → List String → Tree × Option String
  | t, [] => (t, none)
  | t, n :: rest =>
    match _get_mth_name_parts n with
    | .raise e => (t, some e)
    | .ok (m, c, mth) =>
      match _del_mth_in_name_tree t m c mth with
      | (t1, none) => delExceptMethodsGo t1 rest
      | (t1, some e) => (t1, some e)

/-- `_del_except_methods_in_name_tree` (loader.py lines 155–158): iterate over
`set(except_mth_names)` deleting each `module.class.method`. -/
def _del_except_methods_in_name_tree (t : Tree) (except_mth_names : List String) :
    Tree × Option String :=
  delExceptMethodsGo t (pySet except_mth_names)

/-- `_get_dotted_names_dfs` (loader.py lines 250–256): depth-first traversal
of the tree appending `prefix.module.class.method` for every leaf.  The
optional top-level name start is the suite's package (possibly `None`), and
each recursion level joins with Python `'.'.join((p, name)) if p else name`. -/
def _get_dotted_names_dfs (pre : Option String) (t : Tree) : List String :=
  t.flatMap (fun mp =>
    let d1 := joinPre pre mp.1
    mp.2.flatMap (fun cp =>
      let d2 := joinPre (some d1) cp.1
      cp.2.map (fun mth => joinPre (some d2) mth)))

/-- `_get_full_method_names_from_tree` (loader.py lines 245–248). -/
def _get_full_method_names_from_tree (pkg_name : Option String) (t : Tree) : List String :=
  _get_dotted_names_dfs pkg_name t

/-- The full dotted name `package.module.class.method` a leaf contributes
(with falsy components dropped, exactly as the DFS joins them). -/
def dottedName (pkg_name : Option String) (mod_name cls_name mth_name : String) : String :=
  joinPre (some (joinPre (some (joinPre pkg_name mod_name)) cls_name)) mth_name

/-- Number of leaves of a tree: total count of method names over all classes
of all modules. -/
def leafCount (t : Tree) : Nat :=
  (t.map (fun mp => (mp.2.map (fun cp => cp.2.length)).sum)).sum

/-- A `(module, class, method)` path is present in a tree. -/
def memTree (t : Tree) (m c mth : String) : Prop :=
  ∃ cm, lookupA m t = some cm ∧ ∃ s, lookupA c cm = some s ∧ mth ∈ s

/-- Well-formedness a Python nested dict-of-dict-of-set always has: unique
keys at both dict levels and duplicate-free method sets. -/
def TreeWF (t : Tree) : Prop :=
  (t.map Prod.fst).Nodup ∧ ∀ p ∈ t, (p.2.map Prod.fst).Nodup ∧ ∀ q ∈ p.2, q.2.Nodup

/-- No empty branches: every module entry holds at least one class and every
class entry holds at least one method name. -/
def TreeNE (t : Tree) : Prop :=
  ∀ p ∈ t, p.2 ≠ [] ∧ ∀ q ∈ p.2, q.2 ≠ []

instance treeWFDecidable (t : Tree) : Decidable (TreeWF t) := by
  unfold TreeWF
  infer_instance

instance treeNEDecidable (t : Tree) : Decidable (TreeNE t) := by
  unfold TreeNE
  infer_instance

/-- The set of names the spec promises for a tree built from `mod_names`:
`package.module.class.method` for every method whose name starts with the
configured method name start, declared in a class of one of those modules. -/
def SpecNames (env : Env) (methodPref : String) (pkg_name : Option String)
    (mod_names : List String) (x : String) : Prop :=
  ∃ mod_name ∈ mod_names, ∃ cls_name ms,
    (cls_name, ClbrObj.cls ms) ∈ env (joinPre pkg_name mod_name) ∧
    ∃ mth_name, (∃ no, (mth_name, no) ∈ ms) ∧ pyStartsWith mth_name methodPref ∧
      x = dottedName pkg_name mod_name cls_name mth_name

/-- One group of a suite configuration (loader.py lines 91–125): an absent
`disable` key is the same as `disable: false`, and absent exclusion keys are
`none`. -/
structure Group where
  disable : Bool := false
  granularity : String := ""
  modules : List String := []
  classes : List String := []
  methods : List String := []
  except_classes : Option (List String) := none
  except_methods : Option (List String) := none
deriving DecidableEq, Repr

/-- One suite of the configuration (loader.py lines 85–89 and 126): optional
`package` and `max_workers` keys and a dict of groups. -/
structure SuiteConf where
  package : Option String := none
  max_workers : Option Int := none
  groups : List (String × Group) := []
deriving DecidableEq, Repr

/-- One entry of the result of `_parse_tests_from_dict`
(loader.py lines 127–131). -/
structure ResolvedSuite where
  package : String
  test_case_names : List String
  max_workers : Int
deriving DecidableEq, Repr

/-- Lines 86–88 of loader.py: `pkg_name` is `None` unless the suite has a
truthy `package` value. -/
def pkgNameOf (sc : SuiteConf) : Option String :=
  match sc.package with
  | some p => if p = "" then none else some p
  | none => none

/-- The `ValueError` message for an unknown granularity (loader.py line 125). -/
def granularityMsg : String :=
  "Granularity must be in [" ++ pyRepr "module" ++ ", " ++ pyRepr "class" ++ ", " ++
    pyRepr "method" ++ "]."

/-- Lines 108–111 of loader.py: collect into a set the module part of each
`module.class` target, raising on a malformed name. -/
def clsModNamesGo (acc : List String) : List String → PyResult (List String)
  | [] => .ok acc
  | n :: rest =>
    match _get_cls_name_parts n with
    | .raise e => .raise e
    | .ok (m, _) => clsModNamesGo (addToSet acc m) rest

/-- Line 119–120 of loader.py: validate every method-granularity target,
raising on the first malformed one. -/
def validateMthNames : List String → Option String
  | [] => none
  | n :: rest =>
    match _get_mth_name_parts n with
    | .raise e => some e
    | .ok _ => validateMthNames rest

/-- Lines 117–123 of loader.py: the method-granularity branch.  Deduplicate
the targets, validate each for 3-segment form, then prepend the package when
it is truthy. -/
def methodGranRun (pkg_name : Option String) (long_mth_names : List String) :
    PyResult (List String) :=
  let names := pySet long_mth_names
  match validateMthNames names with
  | some e => .raise e
  | none =>
    .ok (if optTruthy pkg_name then names.map (fun x => joinPre pkg_name x) else names)

/-- Lines 93–125 of loader.py: resolve one group into its list of full method
names (the names its `extend` call adds), or the exception it raises. -/
def resolveGroup (env : Env) (methodPref : String) (pkg_name : Option String)
    (g : Group) : PyResult (List String) :=
  if g.granularity = "module" then
    let mod_names := pySet g.modules
    let t0 := _build_name_tree env methodPref pkg_name mod_names none
    let r1 := match g.except_classes with
      | some ec => _del_except_classes_in_name_tree t0 ec
      | none => (t0, none)
    match r1 with
    | (_, some e) => .raise e
    | (t1, none) =>
      let r2 := match g.except_methods with
        | some em => _del_except_methods_in_name_tree t1 em
        | none => (t1, none)
      match r2 with
      | (_, some e) => .raise e
      | (t2, none) => .ok (_get_full_method_names_from_tree pkg_name t2)
  else if g.granularity = "class" then
    let long_cls_names := pySet g.classes
    match clsModNamesGo [] long_cls_names with
    | .raise e => .raise e
    | .ok mod_names =>
      let t0 := _build_name_tree env methodPref pkg_name mod_names (some long_cls_names)
      let r2 := match g.except_methods with
        | some em => _del_except_methods_in_name_tree t0 em
        | none => (t0, none)
      match r2 with
      | (_, some e) => .raise e
      | (t2, none) => .ok (_get_full_method_names_from_tree pkg_name t2)
  else if g.granularity = "method" then
    methodGranRun pkg_name g.methods
  else .raise granularityMsg

/-- Lines 90–125 of loader.py: run the group loop, skipping disabled groups
and concatenating the resolved name lists (`test_cases_names.extend`). -/
def resolveGroups (env : Env) (methodPref : String) (pkg_name : Option String) :
    List (String × Group) → PyResult (List String)
  | [] => .ok []
  | (_, g) :: rest =>
    if g.disable then resolveGroups env methodPref pkg_name rest
    else
      match resolveGroup env methodPref pkg_name g with
      | .raise e => .raise e
      | .ok ns =>
        match resolveGroups env methodPref pkg_name rest with
        | .raise e => .raise e
        | .ok rest_ns => .ok (ns ++ rest_ns)

/-- Lines 85–131 of loader.py: the body of the suite loop of
`_parse_tests_from_dict`.  Resolve every non-disabled group, then record the
package (`pkg_name or 'None'`), the deduplicated name set and `max_workers`
(default 1). -/
def parse_suite (env : Env) (methodPref : String) (sc : SuiteConf) :
    PyResult ResolvedSuite :=
  let pkg_name := pkgNameOf sc
  match resolveGroups env methodPref pkg_name sc.groups with
  | .raise e => .raise e
  | .ok names =>
    .ok { package := match pkg_name with | some p => p | none => "None"
          test_case_names := pySet names
          max_workers := sc.max_workers.getD 1 }

/-- The outcome of resolving a dotted test name to a live Python object in
`_make_case_from_full_name` (loader.py lines 64–75): whether the final object
is a plain function, whether its immediate parent is a type that subclasses
`unittest.TestCase`, whether the attribute looked up on a fresh instance is
still a plain function (a static method) rather than a bound method, and the
final name part. -/
structure Resolved where
  objIsFunction : Bool
  parentIsType : Bool
  parentIsTestCase : Bool
  boundIsFunction : Bool
  lastName : String
deriving DecidableEq, Repr

/-- A constructed test case `parent(name)` bound to one method name. -/
structure TestObj where
  methodName : String
deriving DecidableEq, Repr

/-- `_make_case_from_full_name` (loader.py lines 52–78) after the dotted path
has resolved: raise `TypeError` when the object is not a function; when the
parent is a `unittest.TestCase` subclass, instantiate it and return the case
unless the attribute bound on the instance is still a plain function (a
static method), in which case fall through returning `None`; when the parent
is not such a class, return `None`. -/
def _make_case_from_full_name (r : Resolved) : PyResult (Option TestObj) :=
  if !r.objIsFunction then .raise "TypeError"
  else if r.parentIsType && r.parentIsTestCase then
    if !r.boundIsFunction then .ok (some ⟨r.lastName⟩) else .ok none
  else .ok none

/-- Worker of `load_tests_from_full_names`: make a case from each name,
propagating a raised exception, and filter out the `None` results. -/
def loadTestsGo (res : String → Resolved) : List String → PyResult (List TestObj)
  | [] => .ok []
  | n :: rest =>
    match _make_case_from_full_name (res n) with
    | .raise e => .raise e
    | .ok c =>
      match loadTestsGo res rest with
      | .raise e => .raise e
      | .ok cs => .ok (match c with | some tc => tc :: cs | none => cs)

/-- `load_tests_from_full_names` (loader.py lines 47–50), with the dynamic
import-and-getattr resolution abstracted as `res`. -/
def load_tests_from_full_names (res : String → Resolved) (names : List String) :
    PyResult (List TestObj) :=
  loadTestsGo res names

/-! ### Association-list lemmas -/

theorem lookupA_setA_self {β : Type} (k : String) (v : β) (l : List (String × β)) :
    lookupA k (setA k v l) = some v := by
  induction l with
  | nil => simp [setA, lookupA]
  | cons p rest ih =>
    by_cases h : p.1 = k
    · simp [setA, h, lookupA]
    · simp [setA, h, lookupA, ih]

theorem lookupA_setA_ne {β : Type} {k k' : String} (v : β) (l : List (String × β))
    (h : k' ≠ k) : lookupA k' (setA k v l) = lookupA k' l := by
  induction l with
  | nil => simp [setA, lookupA, Ne.symm h]
  | cons p rest ih =>
    by_cases hp : p.1 = k
    · simp [setA, hp, lookupA, Ne.symm h]
    · simp only [setA, hp, if_false, lookupA]
      by_cases hp' : p.1 = k'
      · simp [hp']
      · simp [hp', ih]

theorem setA_ne_nil {β : Type} (k : String) (v : β) (l : List (String × β)) :
    setA k v l ≠ [] := by
  cases l with
  | nil => simp [setA]
  | cons p rest =>
    by_cases h : p.1 = k <;> simp [setA, h]

theorem keys_setA_mem {β : Type} {k : String} (v : β) {l : List (String × β)}
    (h : k ∈ l.map Prod.fst) : (setA k v l).map Prod.fst = l.map Prod.fst := by
  induction l with
  | nil => simp at h
  | cons p rest ih =>
    by_cases hp : p.1 = k
    · simp [setA, hp]
    · rw [List.map_cons, List.mem_cons] at h
      rcases h with h | h
      · exact absurd h.symm hp
      · simp [setA, hp, ih h]

theorem keys_setA_not_mem {β : Type} {k : String} (v : β) {l : List (String × β)}
    (h : k ∉ l.map Prod.fst) : (setA k v l).map Prod.fst = l.map Prod.fst ++ [k] := by
  induction l with
  | nil => simp [setA]
  | cons p rest ih =>
    rw [List.map_cons, List.mem_cons] at h
    push_neg at h
    have hpk : p.1 ≠ k := fun hh => h.1 hh.symm
    simp [setA, hpk, ih h.2]

theorem nodup_keys_setA {β : Type} (k : String) (v : β) {l : List (String × β)}
    (h : (l.map Prod.fst).Nodup) : ((setA k v l).map Prod.fst).Nodup := by
  by_cases hk : k ∈ l.map Prod.fst
  · rw [keys_setA_mem v hk]; exact h
  · rw [keys_setA_not_mem v hk]
    simpa using List.Nodup.append h (by simp) (by simpa using hk)

theorem mem_setA {β : Type} {k : String} {v : β} {l : List (String × β)} {p : String × β}
    (h : p ∈ setA k v l) : p = (k, v) ∨ p ∈ l := by
  induction l with
  | nil => simpa [setA] using h
  | cons q rest ih =>
    by_cases hq : q.1 = k
    · simp only [setA, hq, if_true, List.mem_cons] at h
      rcases h with h | h
      · exact Or.inl h
      · exact Or.inr (List.mem_cons_of_mem _ h)
    · simp only [setA, hq, if_false, List.mem_cons] at h
      rcases h with h | h
      · exact Or.inr (h ▸ List.mem_cons_self _ _)
      · rcases ih h with h | h
        · exact Or.inl h
        · exact Or.inr (List.mem_cons_of_mem _ h)

theorem mem_setA_of_nodup {β : Type} {k : String} {v : β} {l : List (String × β)}
    {p : String × β} (hnd : (l.map Prod.fst).Nodup) (h : p ∈ setA k v l) :
    p = (k, v) ∨ (p ∈ l ∧ p.1 ≠ k) := by
  induction l with
  | nil =>
    rw [setA, List.mem_singleton] at h
    exact Or.inl h
  | cons q rest ih =>
    rw [List.map_cons, List.nodup_cons] at hnd
    by_cases hq : q.1 = k
    · rw [setA, if_pos hq] at h
      rcases List.mem_cons.1 h with h | h
      · exact Or.inl h
      · refine Or.inr ⟨List.mem_cons_of_mem _ h, fun hpk => hnd.1 ?_⟩
        have hm : p.1 ∈ rest.map Prod.fst := List.mem_map_of_mem Prod.fst h
        rw [hpk, ← hq] at hm
        exact hm
    · rw [setA, if_neg hq] at h
      rcases List.mem_cons.1 h with h | h
      · exact Or.inr ⟨h ▸ List.mem_cons_self _ _, h ▸ hq⟩
      · rcases ih hnd.2 h with h | ⟨h1, h2⟩
        · exact Or.inl h
        · exact Or.inr ⟨List.mem_cons_of_mem _ h1, h2⟩

theorem eraseA_sublist {β : Type} (k : String) (l : List (String × β)) :
    List.Sublist (eraseA k l) l := by
  induction l with
  | nil => simp [eraseA]
  | cons p rest ih =>
    by_cases h : p.1 = k
    · rw [eraseA, if_pos h]
      exact List.sublist_cons_self p rest
    · rw [eraseA, if_neg h]
      exact List.Sublist.cons₂ p ih

theorem mem_eraseA {β : Type} {k : String} {l : List (String × β)} {p : String × β}
    (h : p ∈ eraseA k l) : p ∈ l :=
  (eraseA_sublist k l).subset h

theorem lookupA_eraseA_ne {β : Type} {k k' : String} (l : List (String × β))
    (h : k' ≠ k) : lookupA k' (eraseA k l) = lookupA k' l := by
  induction l with
  | nil => simp [eraseA]
  | cons p rest ih =>
    by_cases hp : p.1 = k
    · simp [eraseA, hp, lookupA, Ne.symm h]
    · simp only [eraseA, hp, if_false, lookupA]
      by_cases hp' : p.1 = k'
      · simp [hp']
      · simp [hp', ih]

theorem lookupA_mem {β : Type} {k : String} {v : β} {l : List (String × β)}
    (h : lookupA k l = some v) : (k, v) ∈ l := by
  induction l with
  | nil => simp [lookupA] at h
  | cons p rest ih =>
    by_cases hp : p.1 = k
    · simp only [lookupA, hp, if_true, Option.some.injEq] at h
      subst h
      cases p
      simp_all
    · simp only [lookupA, hp, if_false] at h
      exact List.mem_cons_of_mem _ (ih h)

theorem lookupA_eq_some_of_mem {β : Type} {k : String} {v : β} {l : List (String × β)}
    (hnd : (l.map Prod.fst).Nodup) (h : (k, v) ∈ l) : lookupA k l = some v := by
  induction l with
  | nil => simp at h
  | cons p rest ih =>
    simp only [List.map_cons, List.nodup_cons, List.mem_map] at hnd
    rcases List.mem_cons.1 h with h | h
    · simp [lookupA, ← h]
    · by_cases hp : p.1 = k
      · exact absurd ⟨(k, v), h, hp.symm⟩ hnd.1
      · simp [lookupA, hp, ih hnd.2 h]

theorem lookupA_none_iff {β : Type} {k : String} {l : List (String × β)} :
    lookupA k l = none ↔ k ∉ l.map Prod.fst := by
  induction l with
  | nil => simp [lookupA]
  | cons p rest ih =>
    by_cases hp : p.1 = k
    · simp [lookupA, hp]
    · have hk : k ≠ p.1 := fun hh => hp hh.symm
      simp [lookupA, hp, ih, hk]

theorem lookupA_eraseA_self {β : Type} {k : String} {l : List (String × β)}
    (hnd : (l.map Prod.fst).Nodup) : lookupA k (eraseA k l) = none := by
  induction l with
  | nil => simp [eraseA, lookupA]
  | cons p rest ih =>
    simp only [List.map_cons, List.nodup_cons, List.mem_map] at hnd
    by_cases hp : p.1 = k
    · simp only [eraseA, hp, if_true]
      subst hp
      cases hres : lookupA p.1 rest with
      | none => rfl
      | some v =>
        exact absurd ⟨(p.1, v), lookupA_mem hres, rfl⟩ hnd.1
    · simp [eraseA, hp, lookupA, ih hnd.2]

theorem mem_eraseA_ne {β : Type} {k : String} {l : List (String × β)} {p : String × β}
    (hnd : (l.map Prod.fst).Nodup) (h : p ∈ eraseA k l) : p.1 ≠ k ∧ p ∈ l := by
  induction l with
  | nil => simp [eraseA] at h
  | cons q rest ih =>
    simp only [List.map_cons, List.nodup_cons, List.mem_map] at hnd
    by_cases hq : q.1 = k
    · subst hq
      simp only [eraseA, if_true] at h
      refine ⟨fun hpk => hnd.1 ⟨p, h, hpk⟩, List.mem_cons_of_mem _ h⟩
    · simp only [eraseA, hq, if_false, List.mem_cons] at h
      rcases h with h | h
      · exact ⟨h ▸ hq, h ▸ List.mem_cons_self _ _⟩
      · exact ⟨(ih hnd.2 h).1, List.mem_cons_of_mem _ (ih hnd.2 h).2⟩

theorem eraseA_eq_nil {β : Type} {k : String} {l : List (String × β)}
    (h : eraseA k l = []) : l = [] ∨ ∃ v, l = [(k, v)] := by
  cases l with
  | nil => exact Or.inl rfl
  | cons p rest =>
    by_cases hp : p.1 = k
    · simp only [eraseA, hp, if_true] at h
      subst h
      exact Or.inr ⟨p.2, by rw [← hp]⟩
    · simp [eraseA, hp] at h

/-! ### Set-model lemmas -/

theorem mem_addToSet {s : List String} {x y : String} :
    x ∈ addToSet s y ↔ x ∈ s ∨ x = y := by
  by_cases h : y ∈ s
  · rw [addToSet, if_pos h]
    constructor
    · exact Or.inl
    · rintro (hx | hx)
      · exact hx
      · exact hx ▸ h
  · rw [addToSet, if_neg h]
    simp

theorem nodup_addToSet {s : List String} (y : String) (h : s.Nodup) :
    (addToSet s y).Nodup := by
  by_cases hy : y ∈ s
  · rwa [addToSet, if_pos hy]
  · rw [addToSet, if_neg hy]
    exact List.Nodup.append h (by simp) (by simpa using hy)

theorem addToSet_ne_nil (s : List String) (y : String) : addToSet s y ≠ [] := by
  by_cases hy : y ∈ s
  · rw [addToSet, if_pos hy]
    exact List.ne_nil_of_mem hy
  · rw [addToSet, if_neg hy]
    simp

theorem addToSet_of_mem {s : List String} {y : String} (h : y ∈ s) : addToSet s y = s := by
  rw [addToSet, if_pos h]

theorem mem_foldl_addToSet (l : List String) (s : List String) (x : String) :
    x ∈ l.foldl addToSet s ↔ x ∈ s ∨ x ∈ l := by
  induction l generalizing s with
  | nil => simp
  | cons a rest ih =>
    rw [List.foldl_cons, ih]
    rw [mem_addToSet]
    simp only [List.mem_cons]
    tauto

theorem nodup_foldl_addToSet (l : List String) {s : List String} (h : s.Nodup) :
    (l.foldl addToSet s).Nodup := by
  induction l generalizing s with
  | nil => exact h
  | cons a rest ih => exact ih (nodup_addToSet a h)

theorem foldl_addToSet_ne_nil (l : List String) {s : List String} (h : s ≠ []) :
    l.foldl addToSet s ≠ [] := by
  induction l generalizing s with
  | nil => exact h
  | cons a rest ih => exact ih (addToSet_ne_nil s a)

theorem mem_pySet (l : List String) (x : String) : x ∈ pySet l ↔ x ∈ l := by
  rw [pySet, mem_foldl_addToSet]
  simp

theorem nodup_pySet (l : List String) : (pySet l).Nodup :=
  nodup_foldl_addToSet l List.nodup_nil

theorem foldl_addToSet_of_nodup_disjoint {l s : List String} (hl : l.Nodup)
    (hd : ∀ x ∈ l, x ∉ s) : l.foldl addToSet s = s ++ l := by
  induction l generalizing s with
  | nil => simp
  | cons a rest ih =>
    rw [List.nodup_cons] at hl
    rw [List.foldl_cons, addToSet, if_neg (hd a (List.mem_cons_self a rest))]
    rw [ih hl.2]
    · simp
    · intro x hx
      rw [List.mem_append, List.mem_singleton]
      rintro (hxs | hxa)
      · exact hd x (List.mem_cons_of_mem _ hx) hxs
      · exact hl.1 (hxa ▸ hx)

theorem pySet_of_nodup {l : List String} (h : l.Nodup) : pySet l = l := by
  rw [pySet, foldl_addToSet_of_nodup_disjoint h (by simp), List.nil_append]

theorem pySet_idem (l : List String) : pySet (pySet l) = pySet l :=
  pySet_of_nodup (nodup_pySet l)

theorem foldl_addToSet_absorb {l1 l2 s : List String} {n : String} (h : n ∈ l1) :
    (l1 ++ n :: l2).foldl addToSet s = (l1 ++ l2).foldl addToSet s := by
  rw [List.foldl_append, List.foldl_append, List.foldl_cons]
  rw [addToSet_of_mem ((mem_foldl_addToSet l1 s n).2 (Or.inr h))]

theorem pySet_absorb {l1 l2 : List String} {n : String} (h : n ∈ l1) :
    pySet (l1 ++ n :: l2) = pySet (l1 ++ l2) :=
  foldl_addToSet_absorb h

/-! ### Method-name sorting lemmas -/

theorem insertByNo_perm (p : String × Nat) (l : List (String × Nat)) :
    (insertByNo p l).Perm (p :: l) := by
  induction l with
  | nil => simp [insertByNo]
  | cons q rest ih =>
    by_cases h : p.2 < q.2
    · rw [insertByNo, if_pos h]
    · rw [insertByNo, if_neg h]
      exact (ih.cons q).trans (List.Perm.swap p q rest)

theorem sortByNo_perm (l : List (String × Nat)) : (sortByNo l).Perm l := by
  induction l with
  | nil => simp [sortByNo]
  | cons p rest ih =>
    rw [sortByNo, List.foldr_cons]
    exact (insertByNo_perm p _).trans (ih.cons p)

theorem mem_get_method_names (methodPref : String) (methods : List (String × Nat))
    (x : String) :
    x ∈ _get_method_names_by_class methodPref methods ↔
      (∃ no, (x, no) ∈ methods) ∧ pyStartsWith x methodPref = true := by
  rw [_get_method_names_by_class, List.mem_filter, List.mem_map]
  constructor
  · rintro ⟨⟨p, hp, hpx⟩, hst⟩
    exact ⟨⟨p.2, by rw [← hpx]; exact (sortByNo_perm methods).mem_iff.1 (by cases p; exact hp)⟩, hst⟩
  · rintro ⟨⟨no, hno⟩, hst⟩
    exact ⟨⟨(x, no), (sortByNo_perm methods).mem_iff.2 hno, rfl⟩, hst⟩

/-! ### Tree membership under construction -/

theorem lookupA_insertClsMths_ne {t : Tree} {mod_name m : String} (cls_name : String)
    (ms : List String) (h : m ≠ mod_name) :
    lookupA m (insertClsMths t mod_name cls_name ms) = lookupA m t := by
  unfold insertClsMths
  cases hmt : lookupA mod_name t with
  | none =>
    simp only [hmt]
    rw [lookupA_setA_ne _ _ h, lookupA_setA_ne _ _ h]
  | some cm =>
    simp only [hmt]
    rw [lookupA_setA_ne _ _ h]

theorem memTree_nil (m c x : String) : ¬ memTree [] m c x := by
  rintro ⟨cm, hcm, -⟩
  simp [lookupA] at hcm

theorem memTree_insertClsMths (t : Tree) (mod_name cls_name : String) (ms : List String)
    (m c x : String) :
    memTree (insertClsMths t mod_name cls_name ms) m c x ↔
      (m = mod_name ∧ c = cls_name ∧ x ∈ ms) ∨ memTree t m c x := by
  by_cases hm : m = mod_name
  case neg =>
    unfold memTree
    rw [lookupA_insertClsMths_ne _ _ hm]
    simp [hm]
  case pos =>
    subst hm
    unfold insertClsMths memTree
    cases hmt : lookupA m t with
    | none =>
      simp only [hmt, lookupA_setA_self, Option.getD_some, lookupA, setA]
      by_cases hc : c = cls_name
      · simp [hc, setA, lookupA, mem_foldl_addToSet, hmt]
      · have hc' : cls_name ≠ c := fun hh => hc hh.symm
        simp [hc, hc', setA, lookupA, hmt]
    | some cm =>
      simp only [hmt, lookupA_setA_self, Option.getD_some]
      cases hcc : lookupA cls_name cm with
      | none =>
        simp only [hcc, lookupA_setA_self, Option.getD_some]
        by_cases hc : c = cls_name
        · subst hc
          simp [lookupA_setA_self, mem_foldl_addToSet, hmt, hcc, or_comm]
        · simp only [Option.some.injEq, exists_eq_left']
          rw [lookupA_setA_ne _ _ hc, lookupA_setA_ne _ _ hc]
          simp [hmt, hc]
      | some s =>
        simp only [hcc, lookupA_setA_self, Option.getD_some]
        by_cases hc : c = cls_name
        · subst hc
          simp [lookupA_setA_self, mem_foldl_addToSet, hmt, hcc, or_comm]
        · simp only [Option.some.injEq, exists_eq_left']
          rw [lookupA_setA_ne _ _ hc]
          simp [hmt, hcc, hc]

theorem memTree_buildClsStep (methodPref : String) (fc : Option (List String))
    (mod_name : String) (t : Tree) (p : String × List (String × Nat)) (m c x : String) :
    memTree (buildClsStep methodPref fc mod_name t p) m c x ↔
      (m = mod_name ∧ c = p.1 ∧ fcSkip fc (mod_name ++ "." ++ p.1) = false ∧
        x ∈ _get_method_names_by_class methodPref p.2) ∨
      memTree t m c x := by
  unfold buildClsStep
  by_cases hskip : fcSkip fc (mod_name ++ "." ++ p.1)
  · simp [hskip]
  · rw [if_neg hskip]
    by_cases hmths : _get_method_names_by_class methodPref p.2 = []
    · simp [hmths, eq_false_of_ne_true hskip]
    · rw [if_neg hmths, memTree_insertClsMths]
      simp [eq_false_of_ne_true hskip]

theorem memTree_classFold (methodPref : String) (fc : Option (List String))
    (mod_name : String) (cl : List (String × List (String × Nat))) (t : Tree)
    (m c x : String) :
    memTree (cl.foldl (buildClsStep methodPref fc mod_name) t) m c x ↔
      (m = mod_name ∧ ∃ p ∈ cl, fcSkip fc (mod_name ++ "." ++ p.1) = false ∧ c = p.1 ∧
        x ∈ _get_method_names_by_class methodPref p.2) ∨
      memTree t m c x := by
  induction cl generalizing t with
  | nil => simp
  | cons p rest ih =>
    rw [List.foldl_cons, ih, memTree_buildClsStep]
    constructor
    · rintro (⟨h1, h2⟩ | ⟨h1, h2, h3, h4⟩ | h)
      · exact Or.inl ⟨h1, by
          obtain ⟨q, hq, hq2⟩ := h2
          exact ⟨q, List.mem_cons_of_mem _ hq, hq2⟩⟩
      · exact Or.inl ⟨h1, p, List.mem_cons_self _ _, h3, h2, h4⟩
      · exact Or.inr h
    · rintro (⟨h1, q, hq, hq2, hq3, hq4⟩ | h)
      · rcases List.mem_cons.1 hq with hq | hq
        · exact Or.inr (Or.inl ⟨h1, hq ▸ hq3, hq ▸ hq2, hq ▸ hq4⟩)
        · exact Or.inl ⟨h1, q, hq, hq2, hq3, hq4⟩
      · exact Or.inr (Or.inr h)

theorem memTree_buildModule (env : Env) (methodPref : String) (pkg_name : Option String)
    (fc : Option (List String)) (t : Tree) (mod_name : String) (m c x : String) :
    memTree (buildModule env methodPref pkg_name fc t mod_name) m c x ↔
      (m = mod_name ∧ ∃ p ∈ _get_classes_of_module (_inspect_module env pkg_name mod_name),
        fcSkip fc (mod_name ++ "." ++ p.1) = false ∧ c = p.1 ∧
        x ∈ _get_method_names_by_class methodPref p.2) ∨
      memTree t m c x := by
  unfold buildModule
  by_cases hcl : _get_classes_of_module (_inspect_module env pkg_name mod_name) = []
  · simp [hcl]
  · rw [if_neg hcl, memTree_classFold]

theorem memTree_build (env : Env) (methodPref : String) (pkg_name : Option String)
    (mod_names : List String) (fc : Option (List String)) (m c x : String) :
    memTree (_build_name_tree env methodPref pkg_name mod_names fc) m c x ↔
      ∃ mod_name ∈ mod_names, m = mod_name ∧
        ∃ p ∈ _get_classes_of_module (_inspect_module env pkg_name mod_name),
          fcSkip fc (mod_name ++ "." ++ p.1) = false ∧ c = p.1 ∧
          x ∈ _get_method_names_by_class methodPref p.2 := by
  unfold _build_name_tree
  have main : ∀ (l : List String) (t : Tree),
      memTree (l.foldl (buildModule env methodPref pkg_name fc) t) m c x ↔
        memTree t m c x ∨ ∃ mod_name ∈ l, m = mod_name ∧
          ∃ p ∈ _get_classes_of_module (_inspect_module env pkg_name mod_name),
            fcSkip fc (mod_name ++ "." ++ p.1) = false ∧ c = p.1 ∧
            x ∈ _get_method_names_by_class methodPref p.2 := by
    intro l
    induction l with
    | nil => simp
    | cons a rest ih =>
      intro t
      rw [List.foldl_cons, ih, memTree_buildModule]
      constructor
      · rintro ((h | h) | h)
        · exact Or.inr ⟨a, List.mem_cons_self _ _, h⟩
        · exact Or.inl h
        · obtain ⟨mn, hmn, hrest⟩ := h
          exact Or.inr ⟨mn, List.mem_cons_of_mem _ hmn, hrest⟩
      · rintro (h | ⟨mn, hmn, hrest⟩)
        · exact Or.inl (Or.inr h)
        · rcases List.mem_cons.1 hmn with hmn | hmn
          · exact Or.inl (Or.inl (hmn ▸ hrest))
          · exact Or.inr ⟨mn, hmn, hrest⟩
  rw [main]
  simp [memTree_nil]

/-! ### Flattening lemmas -/

theorem mem_dfs (pre : Option String) (t : Tree) (x : String) :
    x ∈ _get_dotted_names_dfs pre t ↔
      ∃ mp ∈ t, ∃ cp ∈ mp.2, ∃ mth ∈ cp.2, x = dottedName pre mp.1 cp.1 mth := by
  simp only [_get_dotted_names_dfs, List.mem_flatMap, List.mem_map, dottedName]
  constructor
  · rintro ⟨mp, h1, cp, h2, mth, h3, h4⟩
    exact ⟨mp, h1, cp, h2, mth, h3, h4.symm⟩
  · rintro ⟨mp, h1, cp, h2, mth, h3, h4⟩
    exact ⟨mp, h1, cp, h2, mth, h3, h4.symm⟩

theorem dfs_length (pre : Option String) (t : Tree) :
    (_get_dotted_names_dfs pre t).length = leafCount t := by
  unfold _get_dotted_names_dfs leafCount
  induction t with
  | nil => simp
  | cons mp rest ih =>
    rw [List.flatMap_cons, List.length_append, List.map_cons, List.sum_cons, ih]
    congr 1
    induction mp.2 with
    | nil => simp
    | cons cp crest cih =>
      rw [List.flatMap_cons, List.length_append, List.map_cons, List.sum_cons, cih]
      simp

theorem mem_dfs_of_wf {t : Tree} (pre : Option String) (x : String) (hwf : TreeWF t) :
    x ∈ _get_dotted_names_dfs pre t ↔
      ∃ m c mth, memTree t m c mth ∧ x = dottedName pre m c mth := by
  rw [mem_dfs]
  constructor
  · rintro ⟨mp, h1, cp, h2, mth, h3, h4⟩
    refine ⟨mp.1, cp.1, mth, ⟨mp.2, lookupA_eq_some_of_mem hwf.1 ?_, cp.2,
      lookupA_eq_some_of_mem (hwf.2 mp h1).1 ?_, h3⟩, h4⟩
    · cases mp; exact h1
    · cases cp; exact h2
  · rintro ⟨m, c, mth, ⟨cm, hcm, s, hs, hmth⟩, h4⟩
    exact ⟨(m, cm), lookupA_mem hcm, (c, s), lookupA_mem hs, mth, hmth, h4⟩

/-! ### Well-formedness of built trees -/

theorem foldl_addToSet_ne_nil_left {l : List String} (s : List String) (h : l ≠ []) :
    l.foldl addToSet s ≠ [] := by
  obtain ⟨a, ha⟩ := List.exists_mem_of_ne_nil l h
  exact List.ne_nil_of_mem ((mem_foldl_addToSet l s a).2 (Or.inr ha))

theorem lookupA_nil {β : Type} (k : String) : lookupA k ([] : List (String × β)) = none := rfl

theorem lookupA_cons {β : Type} (k : String) (p : String × β) (l : List (String × β)) :
    lookupA k (p :: l) = if p.1 = k then some p.2 else lookupA k l := rfl

theorem setA_nil {β : Type} (k : String) (v : β) : setA k v [] = [(k, v)] := rfl

theorem insertClsMths_none {t : Tree} {mod_name : String} (cls_name : String)
    (ms : List String) (hmt : lookupA mod_name t = none) :
    insertClsMths t mod_name cls_name ms =
      setA mod_name [(cls_name, ms.foldl addToSet [])] (setA mod_name [] t) := by
  unfold insertClsMths
  rw [hmt]
  simp [lookupA_setA_self, lookupA_nil, setA_nil, lookupA_cons, setA]

theorem insertClsMths_some_none {t : Tree} {mod_name cls_name : String} {cm : ClsMap}
    (ms : List String) (hmt : lookupA mod_name t = some cm)
    (hcc : lookupA cls_name cm = none) :
    insertClsMths t mod_name cls_name ms =
      setA mod_name (setA cls_name (ms.foldl addToSet []) (setA cls_name [] cm)) t := by
  unfold insertClsMths
  rw [hmt]
  simp [hmt, hcc, lookupA_setA_self]

theorem insertClsMths_some_some {t : Tree} {mod_name cls_name : String} {cm : ClsMap}
    {s : List String} (ms : List String) (hmt : lookupA mod_name t = some cm)
    (hcc : lookupA cls_name cm = some s) :
    insertClsMths t mod_name cls_name ms =
      setA mod_name (setA cls_name (ms.foldl addToSet s) cm) t := by
  unfold insertClsMths
  rw [hmt]
  simp [hmt, hcc]

theorem treeWF_insertClsMths {t : Tree} (mod_name cls_name : String) (ms : List String)
    (h : TreeWF t) : TreeWF (insertClsMths t mod_name cls_name ms) := by
  obtain ⟨hkeys, hinner⟩ := h
  have hcm : ∀ {cm : ClsMap}, lookupA mod_name t = some cm →
      (cm.map Prod.fst).Nodup ∧ ∀ q ∈ cm, q.2.Nodup := by
    intro cm hcmeq
    exact hinner (mod_name, cm) (lookupA_mem hcmeq)
  cases hmt : lookupA mod_name t with
  | none =>
    rw [insertClsMths_none cls_name ms hmt]
    constructor
    · exact nodup_keys_setA _ _ (nodup_keys_setA _ _ hkeys)
    · intro p hp
      rcases mem_setA hp with hp | hp
      · subst hp
        refine ⟨by simp, ?_⟩
        intro q hq
        rw [List.mem_singleton] at hq
        subst hq
        exact nodup_foldl_addToSet ms List.nodup_nil
      · rcases mem_setA hp with hp | hp
        · subst hp
          exact ⟨List.nodup_nil, by simp⟩
        · exact hinner p hp
  | some cm =>
    cases hcc : lookupA cls_name cm with
    | none =>
      rw [insertClsMths_some_none ms hmt hcc]
      constructor
      · exact nodup_keys_setA _ _ hkeys
      · intro p hp
        rcases mem_setA hp with hp | hp
        · subst hp
          constructor
          · exact nodup_keys_setA _ _ (nodup_keys_setA _ _ (hcm hmt).1)
          · intro q hq
            rcases mem_setA hq with hq | hq
            · subst hq
              exact nodup_foldl_addToSet ms List.nodup_nil
            · rcases mem_setA hq with hq | hq
              · subst hq
                exact List.nodup_nil
              · exact (hcm hmt).2 q hq
        · exact hinner p hp
    | some s =>
      rw [insertClsMths_some_some ms hmt hcc]
      constructor
      · exact nodup_keys_setA _ _ hkeys
      · intro p hp
        rcases mem_setA hp with hp | hp
        · subst hp
          constructor
          · exact nodup_keys_setA _ _ (hcm hmt).1
          · intro q hq
            rcases mem_setA hq with hq | hq
            · subst hq
              exact nodup_foldl_addToSet ms ((hcm hmt).2 (cls_name, s) (lookupA_mem hcc))
            · exact (hcm hmt).2 q hq
        · exact hinner p hp

theorem treeWF_buildClsStep (methodPref : String) (fc : Option (List String))
    (mod_name : String) {t : Tree} (p : String × List (String × Nat)) (h : TreeWF t) :
    TreeWF (buildClsStep methodPref fc mod_name t p) := by
  unfold buildClsStep
  by_cases hskip : fcSkip fc (mod_name ++ "." ++ p.1)
  · rwa [if_pos hskip]
  · rw [if_neg hskip]
    by_cases hmths : _get_method_names_by_class methodPref p.2 = []
    · rwa [if_pos hmths]
    · rw [if_neg hmths]
      exact treeWF_insertClsMths _ _ _ h

theorem treeWF_build (env : Env) (methodPref : String) (pkg_name : Option String)
    (mod_names : List String) (fc : Option (List String)) :
    TreeWF (_build_name_tree env methodPref pkg_name mod_names fc) := by
  unfold _build_name_tree
  have main : ∀ (l : List String) (t : Tree), TreeWF t →
      TreeWF (l.foldl (buildModule env methodPref pkg_name fc) t) := by
    intro l
    induction l with
    | nil => exact fun t h => h
    | cons a rest ih =>
      intro t h
      rw [List.foldl_cons]
      refine ih _ ?_
      unfold buildModule
      by_cases hcl : _get_classes_of_module (_inspect_module env pkg_name a) = []
      · rwa [if_pos hcl]
      · rw [if_neg hcl]
        have inner : ∀ (cl : List (String × List (String × Nat))) (t0 : Tree), TreeWF t0 →
            TreeWF (cl.foldl (buildClsStep methodPref fc a) t0) := by
          intro cl
          induction cl with
          | nil => exact fun t0 h0 => h0
          | cons q qrest qih =>
            intro t0 h0
            rw [List.foldl_cons]
            exact qih _ (treeWF_buildClsStep methodPref fc a q h0)
        exact inner _ t h
  exact main mod_names [] ⟨List.nodup_nil, by simp⟩

/-! ### No-empty-branch invariant of built trees -/

theorem treeNE_insertClsMths {t : Tree} {mod_name cls_name : String} {ms : List String}
    (hwf : TreeWF t) (hne : TreeNE t) (hms : ms ≠ []) :
    TreeNE (insertClsMths t mod_name cls_name ms) := by
  obtain ⟨hkeys, hinner⟩ := hwf
  cases hmt : lookupA mod_name t with
  | none =>
    rw [insertClsMths_none cls_name ms hmt]
    intro p hp
    have ht1keys : ((setA mod_name ([] : ClsMap) t).map Prod.fst).Nodup :=
      nodup_keys_setA _ _ hkeys
    rcases mem_setA_of_nodup ht1keys hp with hp | ⟨hp, hpne⟩
    · subst hp
      refine ⟨by simp, ?_⟩
      intro q hq
      rw [List.mem_singleton] at hq
      subst hq
      exact foldl_addToSet_ne_nil_left _ hms
    · rcases mem_setA hp with hp | hp
      · exact absurd (congrArg Prod.fst hp) hpne
      · exact hne p hp
  | some cm =>
    have hcmwf := hinner (mod_name, cm) (lookupA_mem hmt)
    have hcmne := hne (mod_name, cm) (lookupA_mem hmt)
    cases hcc : lookupA cls_name cm with
    | none =>
      rw [insertClsMths_some_none ms hmt hcc]
      intro p hp
      rcases mem_setA_of_nodup hkeys hp with hp | ⟨hp, hpne⟩
      · subst hp
        refine ⟨setA_ne_nil _ _ _, ?_⟩
        intro q hq
        have hcm1keys : ((setA cls_name ([] : List String) cm).map Prod.fst).Nodup :=
          nodup_keys_setA _ _ hcmwf.1
        rcases mem_setA_of_nodup hcm1keys hq with hq | ⟨hq, hqne⟩
        · subst hq
          exact foldl_addToSet_ne_nil_left _ hms
        · rcases mem_setA hq with hq | hq
          · exact absurd (congrArg Prod.fst hq) hqne
          · exact hcmne.2 q hq
      · exact hne p hp
    | some s =>
      rw [insertClsMths_some_some ms hmt hcc]
      intro p hp
      rcases mem_setA_of_nodup hkeys hp with hp | ⟨hp, hpne⟩
      · subst hp
        refine ⟨setA_ne_nil _ _ _, ?_⟩
        intro q hq
        rcases mem_setA_of_nodup hcmwf.1 hq with hq | ⟨hq, hqne⟩
        · subst hq
          exact foldl_addToSet_ne_nil_left _ hms
        · exact hcmne.2 q hq
      · exact hne p hp

theorem treeWF_treeNE_buildClsStep (methodPref : String) (fc : Option (List String))
    (mod_name : String) {t : Tree} (p : String × List (String × Nat))
    (hwf : TreeWF t) (hne : TreeNE t) :
    TreeWF (buildClsStep methodPref fc mod_name t p) ∧
      TreeNE (buildClsStep methodPref fc mod_name t p) := by
  unfold buildClsStep
  by_cases hskip : fcSkip fc (mod_name ++ "." ++ p.1)
  · rw [if_pos hskip]
    exact ⟨hwf, hne⟩
  · rw [if_neg hskip]
    by_cases hmths : _get_method_names_by_class methodPref p.2 = []
    · rw [if_pos hmths]
      exact ⟨hwf, hne⟩
    · rw [if_neg hmths]
      exact ⟨treeWF_insertClsMths _ _ _ hwf, treeNE_insertClsMths hwf hne hmths⟩

theorem treeWF_treeNE_buildModule (env : Env) (methodPref : String)
    (pkg_name : Option String) (fc : Option (List String)) {t : Tree} (mod_name : String)
    (hwf : TreeWF t) (hne : TreeNE t) :
    TreeWF (buildModule env methodPref pkg_name fc t mod_name) ∧
      TreeNE (buildModule env methodPref pkg_name fc t mod_name) := by
  unfold buildModule
  by_cases hcl : _get_classes_of_module (_inspect_module env pkg_name mod_name) = []
  · rw [if_pos hcl]
    exact ⟨hwf, hne⟩
  · rw [if_neg hcl]
    have inner : ∀ (cl : List (String × List (String × Nat))) (t0 : Tree),
        TreeWF t0 → TreeNE t0 →
        TreeWF (cl.foldl (buildClsStep methodPref fc mod_name) t0) ∧
          TreeNE (cl.foldl (buildClsStep methodPref fc mod_name) t0) := by
      intro cl
      induction cl with
      | nil => exact fun t0 h0 h1 => ⟨h0, h1⟩
      | cons q qrest qih =>
        intro t0 h0 h1
        rw [List.foldl_cons]
        obtain ⟨h0', h1'⟩ := treeWF_treeNE_buildClsStep methodPref fc mod_name q h0 h1
        exact qih _ h0' h1'
    exact inner _ t hwf hne

theorem treeNE_build (env : Env) (methodPref : String) (pkg_name : Option String)
    (mod_names : List String) (fc : Option (List String)) :
    TreeNE (_build_name_tree env methodPref pkg_name mod_names fc) := by
  unfold _build_name_tree
  have main : ∀ (l : List String) (t : Tree), TreeWF t → TreeNE t →
      TreeWF (l.foldl (buildModule env methodPref pkg_name fc) t) ∧
        TreeNE (l.foldl (buildModule env methodPref pkg_name fc) t) := by
    intro l
    induction l with
    | nil => exact fun t h0 h1 => ⟨h0, h1⟩
    | cons a rest ih =>
      intro t h0 h1
      rw [List.foldl_cons]
      obtain ⟨h0', h1'⟩ := treeWF_treeNE_buildModule env methodPref pkg_name fc a h0 h1
      exact ih _ h0' h1'
  exact (main mod_names [] ⟨List.nodup_nil, by simp⟩ (by simp [TreeNE])).2

/-! ### Deletion lemmas -/

theorem mem_removeStr {s : List String} {x y : String} (hnd : s.Nodup) :
    x ∈ removeStr y s ↔ x ∈ s ∧ x ≠ y := by
  induction s with
  | nil => simp [removeStr]
  | cons a rest ih =>
    rw [List.nodup_cons] at hnd
    by_cases ha : a = y
    · subst ha
      rw [removeStr, if_pos rfl]
      constructor
      · intro hx
        exact ⟨List.mem_cons_of_mem _ hx, fun hxy => hnd.1 (hxy ▸ hx)⟩
      · rintro ⟨hx, hxy⟩
        rcases List.mem_cons.1 hx with hx | hx
        · exact absurd hx hxy
        · exact hx
    · rw [removeStr, if_neg ha, List.mem_cons, List.mem_cons, ih hnd.2]
      constructor
      · rintro (hx | ⟨hx, hxy⟩)
        · exact ⟨Or.inl hx, hx ▸ ha⟩
        · exact ⟨Or.inr hx, hxy⟩
      · rintro ⟨hx | hx, hxy⟩
        · exact Or.inl hx
        · exact Or.inr ⟨hx, hxy⟩

theorem delCls_fail_mod {t : Tree} {mod_name : String} (cls_name : String)
    (hmt : lookupA mod_name t = none) :
    _del_cls_in_name_tree t mod_name cls_name =
      (t, some (msgNotFoundTop (mod_name ++ "." ++ cls_name) mod_name)) := by
  unfold _del_cls_in_name_tree
  rw [hmt]

theorem delCls_fail_cls {t : Tree} {mod_name cls_name : String} {cm : ClsMap}
    (hmt : lookupA mod_name t = some cm) (hcc : lookupA cls_name cm = none) :
    _del_cls_in_name_tree t mod_name cls_name =
      (t, some (msgNotFoundIn (mod_name ++ "." ++ cls_name) cls_name mod_name)) := by
  unfold _del_cls_in_name_tree
  rw [hmt]
  simp only [hcc]

theorem delCls_success {t : Tree} {mod_name cls_name : String} {cm : ClsMap}
    {s : List String} (hmt : lookupA mod_name t = some cm)
    (hcc : lookupA cls_name cm = some s) :
    _del_cls_in_name_tree t mod_name cls_name =
      (if eraseA cls_name cm = [] then eraseA mod_name (setA mod_name (eraseA cls_name cm) t)
       else setA mod_name (eraseA cls_name cm) t, none) := by
  unfold _del_cls_in_name_tree
  rw [hmt]
  simp only [hcc]

theorem delMth_fail_mod {t : Tree} {mod_name : String} (cls_name mth_name : String)
    (hmt : lookupA mod_name t = none) :
    _del_mth_in_name_tree t mod_name cls_name mth_name =
      (t, some (msgNotFoundTop (mod_name ++ "." ++ cls_name ++ "." ++ mth_name) mod_name)) := by
  unfold _del_mth_in_name_tree
  rw [hmt]

theorem delMth_fail_cls {t : Tree} {mod_name cls_name : String} (mth_name : String)
    {cm : ClsMap} (hmt : lookupA mod_name t = some cm) (hcc : lookupA cls_name cm = none) :
    _del_mth_in_name_tree t mod_name cls_name mth_name =
      (t, some (msgNotFoundIn (mod_name ++ "." ++ cls_name ++ "." ++ mth_name)
        cls_name mod_name)) := by
  unfold _del_mth_in_name_tree
  rw [hmt]
  simp only [hcc]

theorem delMth_fail_mth {t : Tree} {mod_name cls_name mth_name : String} {cm : ClsMap}
    {s : List String} (hmt : lookupA mod_name t = some cm)
    (hcc : lookupA cls_name cm = some s) (hms : mth_name ∉ s) :
    _del_mth_in_name_tree t mod_name cls_name mth_name =
      (t, some (msgNotFoundIn (mod_name ++ "." ++ cls_name ++ "." ++ mth_name)
        mth_name cls_name)) := by
  unfold _del_mth_in_name_tree
  rw [hmt]
  simp only [hcc, if_neg hms]

theorem delMth_success {t : Tree} {mod_name cls_name mth_name : String} {cm : ClsMap}
    {s : List String} (hmt : lookupA mod_name t = some cm)
    (hcc : lookupA cls_name cm = some s) (hms : mth_name ∈ s) :
    _del_mth_in_name_tree t mod_name cls_name mth_name =
      (let s1 := removeStr mth_name s
       let cm1 := setA cls_name s1 cm
       let cm2 := if s1 = [] then eraseA cls_name cm1 else cm1
       let t1 := setA mod_name cm2 t
       if cm2 = [] then eraseA mod_name t1 else t1, none) := by
  unfold _del_mth_in_name_tree
  rw [hmt]
  simp only [hcc, if_pos hms]

theorem delCls_raise_eq {t t1 : Tree} {mod_name cls_name e : String}
    (h : _del_cls_in_name_tree t mod_name cls_name = (t1, some e)) : t1 = t := by
  cases hmt : lookupA mod_name t with
  | none =>
    rw [delCls_fail_mod cls_name hmt] at h
    exact (Prod.mk.injEq _ _ _ _ ▸ h).1.symm
  | some cm =>
    cases hcc : lookupA cls_name cm with
    | none =>
      rw [delCls_fail_cls hmt hcc] at h
      exact (Prod.mk.injEq _ _ _ _ ▸ h).1.symm
    | some s =>
      rw [delCls_success hmt hcc] at h
      exact absurd (Prod.mk.injEq _ _ _ _ ▸ h).2 (by simp)

theorem delMth_raise_eq {t t1 : Tree} {mod_name cls_name mth_name e : String}
    (h : _del_mth_in_name_tree t mod_name cls_name mth_name = (t1, some e)) : t1 = t := by
  cases hmt : lookupA mod_name t with
  | none =>
    rw [delMth_fail_mod cls_name mth_name hmt] at h
    exact (Prod.mk.injEq _ _ _ _ ▸ h).1.symm
  | some cm =>
    cases hcc : lookupA cls_name cm with
    | none =>
      rw [delMth_fail_cls mth_name hmt hcc] at h
      exact (Prod.mk.injEq _ _ _ _ ▸ h).1.symm
    | some s =>
      by_cases hms : mth_name ∈ s
      · rw [delMth_success hmt hcc hms] at h
        exact absurd (Prod.mk.injEq _ _ _ _ ▸ h).2 (by simp)
      · rw [delMth_fail_mth hmt hcc hms] at h
        exact (Prod.mk.injEq _ _ _ _ ▸ h).1.symm

theorem delCls_memTree_iff {t : Tree} {mod_name cls_name : String} {cm : ClsMap}
    {s : List String} (hwf : TreeWF t) (hmt : lookupA mod_name t = some cm)
    (hcc : lookupA cls_name cm = some s) (m c x : String) :
    memTree (_del_cls_in_name_tree t mod_name cls_name).1 m c x ↔
      (memTree t m c x ∧ ¬(m = mod_name ∧ c = cls_name)) := by
  have hcminner := hwf.2 (mod_name, cm) (lookupA_mem hmt)
  simp only [delCls_success hmt hcc]
  by_cases hm : m = mod_name
  · subst hm
    by_cases hnil : eraseA cls_name cm = []
    · rw [if_pos hnil]
      have hkeys1 : ((setA m (eraseA cls_name cm) t).map Prod.fst).Nodup :=
        nodup_keys_setA _ _ hwf.1
      constructor
      · rintro ⟨cm', hcm', hrest⟩
        rw [lookupA_eraseA_self hkeys1] at hcm'
        exact absurd hcm' (by simp)
      · rintro ⟨⟨cm', hcm', s', hs', hx⟩, hnc⟩
        rw [hmt] at hcm'
        injection hcm' with hcm'
        subst hcm'
        by_cases hcv : c = cls_name
        · exact absurd ⟨rfl, hcv⟩ hnc
        · rw [← lookupA_eraseA_ne cm hcv, hnil, lookupA_nil] at hs'
          exact absurd hs' (by simp)
    · rw [if_neg hnil]
      unfold memTree
      rw [lookupA_setA_self]
      constructor
      · rintro ⟨cm', hcm', s', hs', hx⟩
        injection hcm' with hcm'
        subst hcm'
        by_cases hcv : c = cls_name
        · subst hcv
          rw [lookupA_eraseA_self hcminner.1] at hs'
          exact absurd hs' (by simp)
        · rw [lookupA_eraseA_ne _ hcv] at hs'
          exact ⟨⟨cm, hmt, s', hs', hx⟩, fun hand => hcv hand.2⟩
      · rintro ⟨⟨cm', hcm', s', hs', hx⟩, hnc⟩
        rw [hmt] at hcm'
        injection hcm' with hcm'
        subst hcm'
        have hcv : c ≠ cls_name := fun hh => hnc ⟨rfl, hh⟩
        exact ⟨_, rfl, s', by rw [lookupA_eraseA_ne _ hcv]; exact hs', hx⟩
  · unfold memTree
    by_cases hnil : eraseA cls_name cm = []
    · rw [if_pos hnil, lookupA_eraseA_ne _ hm, lookupA_setA_ne _ _ hm]
      simp [hm]
    · rw [if_neg hnil, lookupA_setA_ne _ _ hm]
      simp [hm]

theorem delMth_memTree_iff {t : Tree} {mod_name cls_name mth_name : String} {cm : ClsMap}
    {s : List String} (hwf : TreeWF t) (hmt : lookupA mod_name t = some cm)
    (hcc : lookupA cls_name cm = some s) (hms : mth_name ∈ s) (m c x : String) :
    memTree (_del_mth_in_name_tree t mod_name cls_name mth_name).1 m c x ↔
      (memTree t m c x ∧ ¬(m = mod_name ∧ c = cls_name ∧ x = mth_name)) := by
  have hcminner := hwf.2 (mod_name, cm) (lookupA_mem hmt)
  have hsnd : s.Nodup := hcminner.2 (cls_name, s) (lookupA_mem hcc)
  simp only [delMth_success hmt hcc hms]
  by_cases hm : m = mod_name
  · subst hm
    by_cases hs1nil : removeStr mth_name s = []
    · rw [hs1nil, if_pos rfl]
      by_cases hcm2nil : eraseA cls_name (setA cls_name ([] : List String) cm) = []
      · rw [if_pos hcm2nil, hcm2nil]
        have hkeys1 : ((setA m ([] : ClsMap) t).map Prod.fst).Nodup :=
          nodup_keys_setA _ _ hwf.1
        constructor
        · rintro ⟨cm1, hcm1, hrest⟩
          rw [lookupA_eraseA_self hkeys1] at hcm1
          exact absurd hcm1 (by simp)
        · rintro ⟨⟨cm1, hcm1, s1, hs1, hx⟩, hnc⟩
          rw [hmt] at hcm1
          injection hcm1 with hcm1
          subst hcm1
          by_cases hcv : c = cls_name
          · subst hcv
            rw [hcc] at hs1
            injection hs1 with hs1
            subst hs1
            have hxmth : x ≠ mth_name := fun hh => hnc ⟨rfl, rfl, hh⟩
            have hmem : x ∈ removeStr mth_name s := (mem_removeStr hsnd).2 ⟨hx, hxmth⟩
            rw [hs1nil] at hmem
            exact absurd hmem (by simp)
          · have h1 : lookupA c (eraseA cls_name (setA cls_name ([] : List String) cm)) =
                lookupA c cm := by
              rw [lookupA_eraseA_ne _ hcv, lookupA_setA_ne _ _ hcv]
            rw [hcm2nil, lookupA_nil, hs1] at h1
            exact absurd h1 (by simp)
      · rw [if_neg hcm2nil]
        unfold memTree
        rw [lookupA_setA_self]
        have hcm1keys : ((setA cls_name ([] : List String) cm).map Prod.fst).Nodup :=
          nodup_keys_setA _ _ hcminner.1
        constructor
        · rintro ⟨cm1, hcm1, s1, hs1, hx⟩
          injection hcm1 with hcm1
          subst hcm1
          by_cases hcv : c = cls_name
          · subst hcv
            rw [lookupA_eraseA_self hcm1keys] at hs1
            exact absurd hs1 (by simp)
          · rw [lookupA_eraseA_ne _ hcv, lookupA_setA_ne _ _ hcv] at hs1
            exact ⟨⟨cm, hmt, s1, hs1, hx⟩, fun hand => hcv hand.2.1⟩
        · rintro ⟨⟨cm1, hcm1, s1, hs1, hx⟩, hnc⟩
          rw [hmt] at hcm1
          injection hcm1 with hcm1
          subst hcm1
          by_cases hcv : c = cls_name
          · subst hcv
            rw [hcc] at hs1
            injection hs1 with hs1
            subst hs1
            have hxmth : x ≠ mth_name := fun hh => hnc ⟨rfl, rfl, hh⟩
            have hmem : x ∈ removeStr mth_name s := (mem_removeStr hsnd).2 ⟨hx, hxmth⟩
            rw [hs1nil] at hmem
            exact absurd hmem (by simp)
          · refine ⟨_, rfl, s1, ?_, hx⟩
            rw [lookupA_eraseA_ne _ hcv, lookupA_setA_ne _ _ hcv]
            exact hs1
    · rw [if_neg hs1nil, if_neg (setA_ne_nil _ _ _)]
      unfold memTree
      rw [lookupA_setA_self]
      constructor
      · rintro ⟨cm1, hcm1, s1, hs1, hx⟩
        injection hcm1 with hcm1
        subst hcm1
        by_cases hcv : c = cls_name
        · subst hcv
          rw [lookupA_setA_self] at hs1
          injection hs1 with hs1
          subst hs1
          obtain ⟨hxs, hxmth⟩ := (mem_removeStr hsnd).1 hx
          exact ⟨⟨cm, hmt, s, hcc, hxs⟩, fun hand => hxmth hand.2.2⟩
        · rw [lookupA_setA_ne _ _ hcv] at hs1
          exact ⟨⟨cm, hmt, s1, hs1, hx⟩, fun hand => hcv hand.2.1⟩
      · rintro ⟨⟨cm1, hcm1, s1, hs1, hx⟩, hnc⟩
        rw [hmt] at hcm1
        injection hcm1 with hcm1
        subst hcm1
        by_cases hcv : c = cls_name
        · subst hcv
          rw [hcc] at hs1
          injection hs1 with hs1
          subst hs1
          have hxmth : x ≠ mth_name := fun hh => hnc ⟨rfl, rfl, hh⟩
          exact ⟨_, rfl, removeStr mth_name s, by rw [lookupA_setA_self],
            (mem_removeStr hsnd).2 ⟨hx, hxmth⟩⟩
        · exact ⟨_, rfl, s1, by rw [lookupA_setA_ne _ _ hcv]; exact hs1, hx⟩
  · unfold memTree
    by_cases hs1nil : removeStr mth_name s = []
    · rw [hs1nil, if_pos rfl]
      by_cases hcm2nil : eraseA cls_name (setA cls_name ([] : List String) cm) = []
      · rw [if_pos hcm2nil, lookupA_eraseA_ne _ hm, lookupA_setA_ne _ _ hm]
        simp [hm]
      · rw [if_neg hcm2nil, lookupA_setA_ne _ _ hm]
        simp [hm]
    · rw [if_neg hs1nil, if_neg (setA_ne_nil _ _ _), lookupA_setA_ne _ _ hm]
      simp [hm]

theorem treeNE_delCls {t t1 : Tree} {mod_name cls_name : String}
    (hwf : TreeWF t) (hne : TreeNE t)
    (h : _del_cls_in_name_tree t mod_name cls_name = (t1, none)) : TreeNE t1 := by
  cases hmt : lookupA mod_name t with
  | none =>
    rw [delCls_fail_mod cls_name hmt] at h
    exact absurd (Prod.mk.injEq _ _ _ _ ▸ h).2 (by simp)
  | some cm =>
    cases hcc : lookupA cls_name cm with
    | none =>
      rw [delCls_fail_cls hmt hcc] at h
      exact absurd (Prod.mk.injEq _ _ _ _ ▸ h).2 (by simp)
    | some s =>
      have hcmne := hne (mod_name, cm) (lookupA_mem hmt)
      rw [delCls_success hmt hcc] at h
      have ht1 := (Prod.mk.injEq _ _ _ _ ▸ h).1
      subst ht1
      by_cases hnil : eraseA cls_name cm = []
      · rw [if_pos hnil]
        intro p hp
        have hkeys1 : ((setA mod_name (eraseA cls_name cm) t).map Prod.fst).Nodup :=
          nodup_keys_setA _ _ hwf.1
        obtain ⟨hpne, hp2⟩ := mem_eraseA_ne hkeys1 hp
        rcases mem_setA_of_nodup hwf.1 hp2 with hp3 | ⟨hp3, -⟩
        · exact absurd (congrArg Prod.fst hp3) hpne
        · exact hne p hp3
      · rw [if_neg hnil]
        intro p hp
        rcases mem_setA_of_nodup hwf.1 hp with hp1 | ⟨hp1, -⟩
        · subst hp1
          refine ⟨hnil, ?_⟩
          intro q hq
          exact hcmne.2 q (mem_eraseA hq)
        · exact hne p hp1

theorem treeNE_delMth {t t1 : Tree} {mod_name cls_name mth_name : String}
    (hwf : TreeWF t) (hne : TreeNE t)
    (h : _del_mth_in_name_tree t mod_name cls_name mth_name = (t1, none)) : TreeNE t1 := by
  cases hmt : lookupA mod_name t with
  | none =>
    rw [delMth_fail_mod cls_name mth_name hmt] at h
    exact absurd (Prod.mk.injEq _ _ _ _ ▸ h).2 (by simp)
  | some cm =>
    cases hcc : lookupA cls_name cm with
    | none =>
      rw [delMth_fail_cls mth_name hmt hcc] at h
      exact absurd (Prod.mk.injEq _ _ _ _ ▸ h).2 (by simp)
    | some s =>
      by_cases hms : mth_name ∈ s
      case neg =>
        rw [delMth_fail_mth hmt hcc hms] at h
        exact absurd (Prod.mk.injEq _ _ _ _ ▸ h).2 (by simp)
      case pos =>
        have hcminner := hwf.2 (mod_name, cm) (lookupA_mem hmt)
        have hcmne := hne (mod_name, cm) (lookupA_mem hmt)
        simp only [delMth_success hmt hcc hms, Prod.mk.injEq, and_true] at h
        subst h
        by_cases hs1nil : removeStr mth_name s = []
        · rw [hs1nil, if_pos rfl]
          by_cases hcm2nil : eraseA cls_name (setA cls_name ([] : List String) cm) = []
          · rw [if_pos hcm2nil, hcm2nil]
            intro p hp
            have hkeys1 : ((setA mod_name ([] : ClsMap) t).map Prod.fst).Nodup :=
              nodup_keys_setA _ _ hwf.1
            obtain ⟨hpne, hp2⟩ := mem_eraseA_ne hkeys1 hp
            rcases mem_setA_of_nodup hwf.1 hp2 with hp3 | ⟨hp3, -⟩
            · exact absurd (congrArg Prod.fst hp3) hpne
            · exact hne p hp3
          · rw [if_neg hcm2nil]
            intro p hp
            rcases mem_setA_of_nodup hwf.1 hp with hp1 | ⟨hp1, -⟩
            · subst hp1
              refine ⟨hcm2nil, ?_⟩
              intro q hq
              have hcm1keys : ((setA cls_name ([] : List String) cm).map Prod.fst).Nodup :=
                nodup_keys_setA _ _ hcminner.1
              obtain ⟨hqne, hq2⟩ := mem_eraseA_ne hcm1keys hq
              rcases mem_setA_of_nodup hcminner.1 hq2 with hq3 | ⟨hq3, -⟩
              · exact absurd (congrArg Prod.fst hq3) hqne
              · exact hcmne.2 q hq3
            · exact hne p hp1
        · rw [if_neg hs1nil, if_neg (setA_ne_nil _ _ _)]
          intro p hp
          rcases mem_setA_of_nodup hwf.1 hp with hp1 | ⟨hp1, -⟩
          · subst hp1
            refine ⟨setA_ne_nil _ _ _, ?_⟩
            intro q hq
            rcases mem_setA_of_nodup hcminner.1 hq with hq1 | ⟨hq1, -⟩
            · subst hq1
              exact hs1nil
            · exact hcmne.2 q hq1
          · exact hne p hp1

/-! ### Name-part parsing lemmas -/

theorem cls_parts_of_split {n a b : String} (h : pySplit n = [a, b]) :
    _get_cls_name_parts n = .ok (a, b) := by
  unfold _get_cls_name_parts
  rw [h]

theorem cls_parts_raise {n : String} (h : (pySplit n).length ≠ 2) :
    _get_cls_name_parts n =
      .raise (pyRepr n ++ " does not comply with: \"module.class\".") := by
  unfold _get_cls_name_parts
  obtain ⟨l, hl⟩ : ∃ l, pySplit n = l := ⟨_, rfl⟩
  rw [hl] at h ⊢
  rcases l with _ | ⟨a, _ | ⟨b, _ | ⟨c, rest⟩⟩⟩
  · rfl
  · rfl
  · exact absurd rfl h
  · rfl

theorem mth_parts_of_split {n a b c : String} (h : pySplit n = [a, b, c]) :
    _get_mth_name_parts n = .ok (a, b, c) := by
  unfold _get_mth_name_parts
  rw [h]

theorem mth_parts_raise {n : String} (h : (pySplit n).length ≠ 3) :
    _get_mth_name_parts n =
      .raise (pyRepr n ++ " does not comply with: \"module.class.method\".") := by
  unfold _get_mth_name_parts
  obtain ⟨l, hl⟩ : ∃ l, pySplit n = l := ⟨_, rfl⟩
  rw [hl] at h ⊢
  rcases l with _ | ⟨a, _ | ⟨b, _ | ⟨c, _ | ⟨d, rest⟩⟩⟩⟩
  · rfl
  · rfl
  · rfl
  · exact absurd rfl h
  · rfl

theorem mth_parts_ok_iff (n : String) :
    (∃ v, _get_mth_name_parts n = .ok v) ↔ (pySplit n).length = 3 := by
  constructor
  · rintro ⟨v, hv⟩
    by_contra hlen
    rw [mth_parts_raise hlen] at hv
    exact absurd hv (by simp)
  · intro hlen
    obtain ⟨l, hl⟩ : ∃ l, pySplit n = l := ⟨_, rfl⟩
    rw [hl] at hlen
    rcases l with _ | ⟨a, _ | ⟨b, _ | ⟨c, _ | ⟨d, rest⟩⟩⟩⟩ <;> simp at hlen
    exact ⟨(a, b, c), mth_parts_of_split hl⟩

theorem validateMthNames_none_iff (l : List String) :
    validateMthNames l = none ↔ ∀ n ∈ l, (pySplit n).length = 3 := by
  induction l with
  | nil => simp [validateMthNames]
  | cons n rest ih =>
    unfold validateMthNames
    cases hp : _get_mth_name_parts n with
    | raise e =>
      simp only [List.mem_cons]
      constructor
      · intro h
        exact absurd h (by simp)
      · intro h
        obtain ⟨v, hv⟩ := (mth_parts_ok_iff n).2 (h n (Or.inl rfl))
        rw [hp] at hv
        exact absurd hv (by simp)
    | ok v =>
      have hn := (mth_parts_ok_iff n).1 ⟨v, hp⟩
      simp only [ih, List.mem_cons]
      constructor
      · intro h n' hn'
        rcases hn' with hn' | hn'
        · exact hn' ▸ hn
        · exact h n' hn'
      · intro h n' hn'
        exact h n' (Or.inr hn')

/-! ### Module-content lemmas -/

theorem mem_get_classes (content : List (String × ClbrObj)) (cls_name : String)
    (ms : List (String × Nat)) :
    (cls_name, ms) ∈ _get_classes_of_module content ↔
      (cls_name, ClbrObj.cls ms) ∈ content := by
  unfold _get_classes_of_module
  rw [List.mem_filterMap]
  constructor
  · rintro ⟨p, hp, hpe⟩
    obtain ⟨n, obj⟩ := p
    cases obj with
    | cls ms0 =>
      simp only [Option.some.injEq, Prod.mk.injEq] at hpe
      rw [← hpe.1, ← hpe.2]
      exact hp
    | other => simp at hpe
  · intro h
    exact ⟨(cls_name, ClbrObj.cls ms), h, rfl⟩

/-! ### Group and suite resolution lemmas -/

theorem mem_resolveGroups (env : Env) (methodPref : String) (pkg_name : Option String) :
    ∀ (gs : List (String × Group)) (ns : List String),
      resolveGroups env methodPref pkg_name gs = .ok ns →
      ∀ x, x ∈ ns ↔ ∃ p ∈ gs, p.2.disable = false ∧
        ∃ gns, resolveGroup env methodPref pkg_name p.2 = .ok gns ∧ x ∈ gns := by
  intro gs
  induction gs with
  | nil =>
    intro ns h x
    unfold resolveGroups at h
    injection h with h
    rw [← h]
    simp
  | cons pg rest ih =>
    intro ns h x
    obtain ⟨key, g⟩ := pg
    rw [resolveGroups] at h
    by_cases hd : g.disable
    · rw [if_pos hd] at h
      rw [ih ns h x]
      constructor
      · rintro ⟨p, hp, hrest⟩
        exact ⟨p, List.mem_cons_of_mem _ hp, hrest⟩
      · rintro ⟨p, hp, hpd, hrest⟩
        rcases List.mem_cons.1 hp with hp | hp
        · rw [hp] at hpd
          exact absurd hpd (by simp [hd])
        · exact ⟨p, hp, hpd, hrest⟩
    · rw [if_neg hd] at h
      cases hg : resolveGroup env methodPref pkg_name g with
      | raise e =>
        rw [hg] at h
        exact absurd h (by simp)
      | ok gns =>
        rw [hg] at h
        cases hr : resolveGroups env methodPref pkg_name rest with
        | raise e =>
          rw [hr] at h
          exact absurd h (by simp)
        | ok rns =>
          rw [hr] at h
          injection h with h
          rw [← h, List.mem_append]
          constructor
          · rintro (hx | hx)
            · exact ⟨(key, g), List.mem_cons_self _ _,
                Bool.not_eq_true _ ▸ (by simpa using hd), gns, hg, hx⟩
            · obtain ⟨p, hp, hrest⟩ := (ih rns hr x).1 hx
              exact ⟨p, List.mem_cons_of_mem _ hp, hrest⟩
          · rintro ⟨p, hp, hpd, pns, hpns, hx⟩
            rcases List.mem_cons.1 hp with hp | hp
            · left
              have : p.2 = g := congrArg Prod.snd hp
              rw [this] at hpns
              rw [hg] at hpns
              injection hpns with hpns
              rw [← hpns] at hx
              exact hx
            · right
              exact (ih rns hr x).2 ⟨p, hp, hpd, pns, hpns, hx⟩

/-! ### Claim theorems -/

/-- C1: for every package and set of module names, building the name tree
from those modules (`_build_name_tree`, no class filter) and flattening it
(`_get_full_method_names_from_tree`) yields exactly the set of dotted names
`package.module.class.method` (or `module.class.method` when no package is
set) for every method whose name starts with the configured test-method
name start in a class of those modules; and flattening visits every leaf of
the tree exactly once (the flattened list is as long as the tree has
leaves). -/
theorem c1_build_flatten_exact (env : Env) (methodPref : String) (pkg_name : Option String)
    (mod_names : List String) :
    (∀ x, x ∈ _get_full_method_names_from_tree pkg_name
        (_build_name_tree env methodPref pkg_name mod_names none) ↔
      SpecNames env methodPref pkg_name mod_names x) ∧
    (∀ t : Tree, (_get_full_method_names_from_tree pkg_name t).length = leafCount t) := by
  constructor
  · intro x
    unfold _get_full_method_names_from_tree
    rw [mem_dfs_of_wf pkg_name x (treeWF_build env methodPref pkg_name mod_names none)]
    unfold SpecNames
    constructor
    · rintro ⟨m, c, mth, hmem, hx⟩
      rw [memTree_build] at hmem
      obtain ⟨mod, hmod, hm, p, hp, -, hc, hmth⟩ := hmem
      obtain ⟨⟨no, hno⟩, hst⟩ := (mem_get_method_names _ _ _).1 hmth
      refine ⟨mod, hmod, p.1, p.2, ?_, mth, ⟨no, hno⟩, hst, ?_⟩
      · exact (mem_get_classes (_inspect_module env pkg_name mod) p.1 p.2).1
          (by cases p; exact hp)
      · rw [hx, hm, hc]
    · rintro ⟨mod, hmod, cls, ms, henv, mth, ⟨no, hno⟩, hst, hx⟩
      refine ⟨mod, cls, mth, ?_, hx⟩
      rw [memTree_build]
      refine ⟨mod, hmod, rfl, (cls, ms), ?_, rfl, rfl, ?_⟩
      · rw [mem_get_classes]
        exact henv
      · exact (mem_get_method_names _ _ _).2 ⟨⟨no, hno⟩, hst⟩
  · intro t
    exact dfs_length pkg_name t

/-- C2: deleting a class or a method whose module, class or method is absent
from the name tree fails with the `ValueError` whose message names the exact
missing identifier at the missing level, leaving the state with the raised
message; a deletion whose path exists succeeds (no raise) and removes
exactly that class (all its methods) or exactly that method. -/
theorem c2_delete_errors_and_exact (t : Tree) (mod_name cls_name mth_name : String)
    (hwf : TreeWF t) :
    (lookupA mod_name t = none →
      _del_cls_in_name_tree t mod_name cls_name =
        (t, some (msgNotFoundTop (mod_name ++ "." ++ cls_name) mod_name)) ∧
      _del_mth_in_name_tree t mod_name cls_name mth_name =
        (t, some (msgNotFoundTop (mod_name ++ "." ++ cls_name ++ "." ++ mth_name)
          mod_name))) ∧
    (∀ cm, lookupA mod_name t = some cm → lookupA cls_name cm = none →
      _del_cls_in_name_tree t mod_name cls_name =
        (t, some (msgNotFoundIn (mod_name ++ "." ++ cls_name) cls_name mod_name)) ∧
      _del_mth_in_name_tree t mod_name cls_name mth_name =
        (t, some (msgNotFoundIn (mod_name ++ "." ++ cls_name ++ "." ++ mth_name)
          cls_name mod_name))) ∧
    (∀ cm s, lookupA mod_name t = some cm → lookupA cls_name cm = some s → mth_name ∉ s →
      _del_mth_in_name_tree t mod_name cls_name mth_name =
        (t, some (msgNotFoundIn (mod_name ++ "." ++ cls_name ++ "." ++ mth_name)
          mth_name cls_name))) ∧
    (∀ cm s, lookupA mod_name t = some cm → lookupA cls_name cm = some s →
      (_del_cls_in_name_tree t mod_name cls_name).2 = none ∧
      ∀ m c x, memTree (_del_cls_in_name_tree t mod_name cls_name).1 m c x ↔
        (memTree t m c x ∧ ¬(m = mod_name ∧ c = cls_name))) ∧
    (∀ cm s, lookupA mod_name t = some cm → lookupA cls_name cm = some s → mth_name ∈ s →
      (_del_mth_in_name_tree t mod_name cls_name mth_name).2 = none ∧
      ∀ m c x, memTree (_del_mth_in_name_tree t mod_name cls_name mth_name).1 m c x ↔
        (memTree t m c x ∧ ¬(m = mod_name ∧ c = cls_name ∧ x = mth_name))) := by
  refine ⟨?_, ?_, ?_, ?_, ?_⟩
  · intro hmt
    exact ⟨delCls_fail_mod _ hmt, delMth_fail_mod _ _ hmt⟩
  · intro cm hmt hcc
    exact ⟨delCls_fail_cls hmt hcc, delMth_fail_cls _ hmt hcc⟩
  · intro cm s hmt hcc hms
    exact delMth_fail_mth hmt hcc hms
  · intro cm s hmt hcc
    refine ⟨?_, delCls_memTree_iff hwf hmt hcc⟩
    rw [delCls_success hmt hcc]
  · intro cm s hmt hcc hms
    refine ⟨?_, delMth_memTree_iff hwf hmt hcc hms⟩
    rw [delMth_success hmt hcc hms]

/-- Witness for C2: on the tree `{m: {C: {t1, t2}}}`, deleting the absent
class `m.X` raises the message naming `X`, and deleting the present method
`m.C.t2` raises nothing. -/
theorem c2_witness :
    _del_cls_in_name_tree [("m", [("C", ["t1", "t2"])])] "m" "X" =
      ([("m", [("C", ["t1", "t2"])])],
        some (msgNotFoundIn ("m" ++ "." ++ "X") "X" "m")) ∧
    (_del_mth_in_name_tree [("m", [("C", ["t1", "t2"])])] "m" "C" "t2").2 = none :=
  ⟨((c2_delete_errors_and_exact [("m", [("C", ["t1", "t2"])])] "m" "X" "t1"
      (by decide)).2.1 [("C", ["t1", "t2"])] rfl rfl).1,
   ((c2_delete_errors_and_exact [("m", [("C", ["t1", "t2"])])] "m" "C" "t2"
      (by decide)).2.2.2.2 [("C", ["t1", "t2"])] ["t1", "t2"] rfl rfl (by decide)).1⟩

/-- C3: the name tree never contains an empty branch: a freshly built tree
has no module entry without a class and no class entry without a method, and
both deletion operations preserve this when they succeed. -/
theorem c3_no_empty_branches (env : Env) (methodPref : String) (pkg_name : Option String)
    (mod_names : List String) (fc : Option (List String)) (t t1 t2 : Tree)
    (mod_name cls_name mth_name : String) :
    TreeNE (_build_name_tree env methodPref pkg_name mod_names fc) ∧
    (TreeWF t → TreeNE t → _del_cls_in_name_tree t mod_name cls_name = (t1, none) →
      TreeNE t1) ∧
    (TreeWF t → TreeNE t → _del_mth_in_name_tree t mod_name cls_name mth_name = (t2, none) →
      TreeNE t2) :=
  ⟨treeNE_build env methodPref pkg_name mod_names fc,
   fun hwf hne h => treeNE_delCls hwf hne h,
   fun hwf hne h => treeNE_delMth hwf hne h⟩

/-- Witness for C3: a built tree is empty-branch free, and so are the
results of a successful class deletion and a successful method deletion. -/
theorem c3_witness :
    TreeNE (_build_name_tree (fun _ => [("C", ClbrObj.cls [("test_a", 1)])]) "test"
      none ["m"] none) ∧
    TreeNE [("m", [("C", ["a", "b"])])] ∧
    TreeNE [("m", [("C", ["b"]), ("D", ["c"])])] :=
  ⟨(c3_no_empty_branches (fun _ => [("C", ClbrObj.cls [("test_a", 1)])]) "test" none
      ["m"] none [] [] [] "m" "C" "a").1,
   (c3_no_empty_branches (fun _ => []) "test" none [] none
      [("m", [("C", ["a", "b"]), ("D", ["c"])])] [("m", [("C", ["a", "b"])])] [] "m" "D"
      "a").2.1 (by decide) (by decide) (by decide),
   (c3_no_empty_branches (fun _ => []) "test" none [] none
      [("m", [("C", ["a", "b"]), ("D", ["c"])])] [] [("m", [("C", ["b"]), ("D", ["c"])])]
      "m" "C" "a").2.2 (by decide) (by decide) (by decide)⟩

/-- C4 counterexample: the string `"a."` splits on `.` into exactly 2
segments, the second one empty, and `_get_cls_name_parts` accepts it,
returning `("a", "")` instead of failing as the claim requires for an empty
segment. -/
theorem c4_counterexample :
    (pySplit "a.").length = 2 ∧ ("" ∈ pySplit "a.") ∧
      _get_cls_name_parts "a." = .ok ("a", "") := by
  decide

/-- C4 (amended): `_get_cls_name_parts` returns the exact (module, class)
split whenever the string splits into exactly 2 segments on `.` — segments
may be empty — and raises the format error exactly when the segment count is
not 2; `_get_mth_name_parts` likewise with 3 segments. -/
theorem c4_amended_name_parts_arity (s : String) :
    (∀ a b, pySplit s = [a, b] → _get_cls_name_parts s = .ok (a, b)) ∧
    ((pySplit s).length ≠ 2 →
      _get_cls_name_parts s =
        .raise (pyRepr s ++ " does not comply with: \"module.class\".")) ∧
    (∀ a b c, pySplit s = [a, b, c] → _get_mth_name_parts s = .ok (a, b, c)) ∧
    ((pySplit s).length ≠ 3 →
      _get_mth_name_parts s =
        .raise (pyRepr s ++ " does not comply with: \"module.class.method\".")) :=
  ⟨fun _ _ h => cls_parts_of_split h, cls_parts_raise,
   fun _ _ _ h => mth_parts_of_split h, mth_parts_raise⟩

/-- Witness for C4 (amended): `"m.C"` parses as a class name and is rejected
as a method name. -/
theorem c4_witness :
    _get_cls_name_parts "m.C" = .ok ("m", "C") ∧
      _get_mth_name_parts "m.C" =
        .raise (pyRepr "m.C" ++ " does not comply with: \"module.class.method\".") :=
  ⟨(c4_amended_name_parts_arity "m.C").1 "m" "C" (by decide),
   (c4_amended_name_parts_arity "m.C").2.2.2 (by decide)⟩

/-- C5: for a resolved dotted name, `_make_case_from_full_name` raises
`TypeError` when the object is not a plain function; yields no case (and the
name is dropped from the loaded suite) when the owner is not a test-case
class or when the attribute bound on a fresh instance is still a plain
function (a static method); and otherwise returns an instantiated case bound
to that method. -/
theorem c5_case_loader (r : Resolved) (res : String → Resolved)
    (pre post : List String) (n : String) :
    (r.objIsFunction = false → _make_case_from_full_name r = .raise "TypeError") ∧
    (r.objIsFunction = true → (r.parentIsType && r.parentIsTestCase) = false →
      _make_case_from_full_name r = .ok none) ∧
    (r.objIsFunction = true → r.parentIsType = true → r.parentIsTestCase = true →
      r.boundIsFunction = true → _make_case_from_full_name r = .ok none) ∧
    (r.objIsFunction = true → r.parentIsType = true → r.parentIsTestCase = true →
      r.boundIsFunction = false →
      _make_case_from_full_name r = .ok (some ⟨r.lastName⟩)) ∧
    (_make_case_from_full_name (res n) = .ok none →
      load_tests_from_full_names res (pre ++ n :: post) =
        load_tests_from_full_names res (pre ++ post)) := by
  refine ⟨?_, ?_, ?_, ?_, ?_⟩
  · intro h
    simp [_make_case_from_full_name, h]
  · intro h1 h2
    simp [_make_case_from_full_name, h1, h2]
  · intro h1 h2 h3 h4
    simp [_make_case_from_full_name, h1, h2, h3, h4]
  · intro h1 h2 h3 h4
    simp [_make_case_from_full_name, h1, h2, h3, h4]
  · intro h
    unfold load_tests_from_full_names
    induction pre with
    | nil =>
      rw [List.nil_append, loadTestsGo, h]
      cases hres : loadTestsGo res post <;> simp [hres]
    | cons a rest ih =>
      rw [List.cons_append, List.cons_append, loadTestsGo, loadTestsGo, ih]

/-- Witness for C5: an eligible-looking name whose bound attribute is still a
plain function yields no case, and such a name is dropped from the loaded
list. -/
theorem c5_witness :
    _make_case_from_full_name ⟨true, true, true, true, "t"⟩ = .ok none ∧
    load_tests_from_full_names (fun _ => ⟨true, true, true, true, "t"⟩)
        (["a"] ++ "b" :: []) =
      load_tests_from_full_names (fun _ => ⟨true, true, true, true, "t"⟩) (["a"] ++ []) :=
  ⟨(c5_case_loader ⟨true, true, true, true, "t"⟩ (fun _ => ⟨true, true, true, true, "t"⟩)
      ["a"] [] "b").2.2.1 rfl rfl rfl rfl,
   (c5_case_loader ⟨true, true, true, true, "t"⟩ (fun _ => ⟨true, true, true, true, "t"⟩)
      ["a"] [] "b").2.2.2.2 (by decide)⟩

/-- C6: for a method-granularity group, each target is validated to have
exactly 3 dotted segments and the result needs no introspection (no `Env`
appears): the deduplicated targets are returned, prefixed with the package
exactly when one is set (`joinPre` is the identity when it is not); a target
with a segment count other than 3 makes the whole group raise. -/
theorem c6_method_granularity (pkg_name : Option String) (long_mth_names : List String) :
    ((∀ n ∈ long_mth_names, (pySplit n).length = 3) →
      ∃ res, methodGranRun pkg_name long_mth_names = .ok res ∧
        ∀ x, x ∈ res ↔ ∃ n ∈ long_mth_names, x = joinPre pkg_name n) ∧
    (∀ n ∈ long_mth_names, (pySplit n).length ≠ 3 →
      ∃ e, methodGranRun pkg_name long_mth_names = .raise e) := by
  constructor
  · intro h3
    simp only [methodGranRun]
    have hv : validateMthNames (pySet long_mth_names) = none :=
      (validateMthNames_none_iff _).2 (fun n hn => h3 n ((mem_pySet _ _).1 hn))
    rw [hv]
    refine ⟨_, rfl, ?_⟩
    intro x
    by_cases hop : optTruthy pkg_name
    · rw [if_pos hop, List.mem_map]
      constructor
      · rintro ⟨n, hn, rfl⟩
        exact ⟨n, (mem_pySet _ _).1 hn, rfl⟩
      · rintro ⟨n, hn, rfl⟩
        exact ⟨n, (mem_pySet _ _).2 hn, rfl⟩
    · rw [if_neg hop, mem_pySet]
      have hjp : ∀ n : String, joinPre pkg_name n = n := by
        intro n
        cases pkg_name with
        | none => rfl
        | some p =>
          unfold optTruthy at hop
          simp only [Bool.not_eq_true, Bool.not_eq_false] at hop
          rw [joinPre, if_pos (by simpa using hop)]
      constructor
      · intro hx
        exact ⟨x, hx, (hjp x).symm⟩
      · rintro ⟨n, hn, hxn⟩
        rw [hxn, hjp n]
        exact hn
  · intro n hn hlen
    cases hv : validateMthNames (pySet long_mth_names) with
    | some e =>
      refine ⟨e, ?_⟩
      simp only [methodGranRun]
      rw [hv]
    | none =>
      exact absurd ((validateMthNames_none_iff _).1 hv n ((mem_pySet _ _).2 hn)) hlen

/-- Witness for C6: with package `"pkg"`, the target `"mod.Cls.test_x"`
resolves, and each member of the result is `"pkg.mod.Cls.test_x"`; a
2-segment target raises. -/
theorem c6_witness :
    (∃ res, methodGranRun (some "pkg") ["mod.Cls.test_x"] = .ok res ∧
      ∀ x, x ∈ res ↔ ∃ n ∈ ["mod.Cls.test_x"], x = joinPre (some "pkg") n) ∧
    (∃ e, methodGranRun none ["mod.Cls"] = .raise e) :=
  ⟨(c6_method_granularity (some "pkg") ["mod.Cls.test_x"]).1 (by decide),
   (c6_method_granularity none ["mod.Cls"]).2 "mod.Cls" (by decide) (by decide)⟩

/-- C7: the test-case-name set of a successfully parsed suite is exactly the
union of the name sets resolved from its non-disabled groups: a name is in
the suite's set exactly when some non-disabled group resolves to a list
containing it (so overlapping groups contribute a name once, and a disabled
group contributes nothing). -/
theorem c7_suite_union (env : Env) (methodPref : String) (sc : SuiteConf)
    (rs : ResolvedSuite) (h : parse_suite env methodPref sc = .ok rs) :
    ∀ x, x ∈ rs.test_case_names ↔
      ∃ p ∈ sc.groups, p.2.disable = false ∧
        ∃ gns, resolveGroup env methodPref (pkgNameOf sc) p.2 = .ok gns ∧ x ∈ gns := by
  intro x
  simp only [parse_suite] at h
  cases hr : resolveGroups env methodPref (pkgNameOf sc) sc.groups with
  | raise e =>
    rw [hr] at h
    exact absurd h (by simp)
  | ok names =>
    rw [hr] at h
    injection h with h
    rw [← h]
    show x ∈ pySet names ↔ _
    rw [mem_pySet]
    exact mem_resolveGroups env methodPref (pkgNameOf sc) sc.groups names hr x

/-- Witness for C7: a suite with two overlapping method-granularity groups
and one disabled group; `"m.C.b"` is reachable through both live groups and
the disabled group's target is absent. -/
theorem c7_witness :
    "m.C.b" ∈ (⟨"None", pySet ["m.C.a", "m.C.b", "m.C.b", "m.C.c"], 1⟩ :
        ResolvedSuite).test_case_names ↔
      ∃ p ∈ [("g1", (⟨false, "method", [], [], ["m.C.a", "m.C.b"], none, none⟩ : Group)),
             ("g2", ⟨false, "method", [], [], ["m.C.b", "m.C.c"], none, none⟩),
             ("g3", ⟨true, "method", [], [], ["x.Y.z"], none, none⟩)],
        p.2.disable = false ∧
        ∃ gns, resolveGroup (fun _ => []) "test"
            (pkgNameOf ⟨none, none,
              [("g1", ⟨false, "method", [], [], ["m.C.a", "m.C.b"], none, none⟩),
               ("g2", ⟨false, "method", [], [], ["m.C.b", "m.C.c"], none, none⟩),
               ("g3", ⟨true, "method", [], [], ["x.Y.z"], none, none⟩)]⟩) p.2 = .ok gns ∧
          "m.C.b" ∈ gns :=
  c7_suite_union (fun _ => []) "test"
    ⟨none, none,
      [("g1", ⟨false, "method", [], [], ["m.C.a", "m.C.b"], none, none⟩),
       ("g2", ⟨false, "method", [], [], ["m.C.b", "m.C.c"], none, none⟩),
       ("g3", ⟨true, "method", [], [], ["x.Y.z"], none, none⟩)]⟩
    ⟨"None", pySet ["m.C.a", "m.C.b", "m.C.b", "m.C.c"], 1⟩ (by decide) "m.C.b"

/-- C8 counterexample: a suite that omits the package and a suite whose
package is literally named `"None"` resolve to records with the identical
package field `"None"`, so the sentinel is not distinguishable from that
literal package name as the claim requires. -/
theorem c8_counterexample :
    parse_suite (fun _ => []) "test" ⟨none, none, []⟩ = .ok ⟨"None", [], 1⟩ ∧
    parse_suite (fun _ => []) "test" ⟨some "None", none, []⟩ = .ok ⟨"None", [], 1⟩ := by
  decide

/-- C8 (amended): for a suite whose configuration omits the package, the
package field of the resolved record is the literal string `"None"`; this
sentinel collides with a package literally named `"None"`, which produces
the same field. -/
theorem c8_amended_package_sentinel (env : Env) (methodPref : String) (sc : SuiteConf)
    (rs : ResolvedSuite) (h : parse_suite env methodPref sc = .ok rs) :
    (sc.package = none → rs.package = "None") ∧
    (sc.package = some "None" → rs.package = "None") := by
  simp only [parse_suite] at h
  cases hr : resolveGroups env methodPref (pkgNameOf sc) sc.groups with
  | raise e =>
    rw [hr] at h
    exact absurd h (by simp)
  | ok names =>
    rw [hr] at h
    injection h with h
    constructor
    · intro hp
      rw [← h]
      show (match pkgNameOf sc with | some p => p | none => "None") = "None"
      unfold pkgNameOf
      rw [hp]
    · intro hp
      rw [← h]
      show (match pkgNameOf sc with | some p => p | none => "None") = "None"
      unfold pkgNameOf
      rw [hp]
      decide

/-- Witness for C8 (amended): the two collision cases instantiated on
concrete empty suites. -/
theorem c8_witness :
    (⟨"None", [], 1⟩ : ResolvedSuite).package = "None" ∧
    (⟨"None", [], 1⟩ : ResolvedSuite).package = "None" :=
  ⟨(c8_amended_package_sentinel (fun _ => []) "test" ⟨none, none, []⟩ ⟨"None", [], 1⟩
      (by decide)).1 rfl,
   (c8_amended_package_sentinel (fun _ => []) "test" ⟨some "None", none, []⟩ ⟨"None", [], 1⟩
      (by decide)).2 rfl⟩

/-- C9: tree deletion is atomic: whenever `_del_cls_in_name_tree` or
`_del_mth_in_name_tree` raises (because the module, class or method is
absent), the tree state it leaves behind is exactly the input tree — every
existence check precedes any mutation. -/
theorem c9_delete_atomic (t : Tree) (mod_name cls_name mth_name e : String) :
    (∀ t1, _del_cls_in_name_tree t mod_name cls_name = (t1, some e) → t1 = t) ∧
    (∀ t1, _del_mth_in_name_tree t mod_name cls_name mth_name = (t1, some e) → t1 = t) :=
  ⟨fun _ h => delCls_raise_eq h, fun _ h => delMth_raise_eq h⟩

/-- Witness for C9: a failing class deletion on a concrete tree leaves the
tree unchanged. -/
theorem c9_witness :
    _del_cls_in_name_tree [("m", [("C", ["a"])])] "x" "Y" =
      ([("m", [("C", ["a"])])], some (msgNotFoundTop ("x" ++ "." ++ "Y") "x")) ∧
    ([("m", [("C", ["a"])])] : Tree) = [("m", [("C", ["a"])])] :=
  ⟨by decide,
   (c9_delete_atomic [("m", [("C", ["a"])])] "x" "Y" "z"
      (msgNotFoundTop ("x" ++ "." ++ "Y") "x")).1 [("m", [("C", ["a"])])] (by decide)⟩

/-- C10: duplicate entries in `except_classes` or `except_methods` are
collapsed before application (`set(...)` in the source): applying a list
equals applying its deduplication, and in particular a repeated identifier
whose first occurrence already deleted the entry causes no further effect
and no `NotFoundError`. -/
theorem c10_except_duplicates (t : Tree) (l l1 l2 : List String) (n : String) :
    _del_except_classes_in_name_tree t l = _del_except_classes_in_name_tree t (pySet l) ∧
    _del_except_methods_in_name_tree t l = _del_except_methods_in_name_tree t (pySet l) ∧
    (n ∈ l1 → _del_except_classes_in_name_tree t (l1 ++ n :: l2) =
      _del_except_classes_in_name_tree t (l1 ++ l2)) ∧
    (n ∈ l1 → _del_except_methods_in_name_tree t (l1 ++ n :: l2) =
      _del_except_methods_in_name_tree t (l1 ++ l2)) := by
  refine ⟨?_, ?_, ?_, ?_⟩
  · unfold _del_except_classes_in_name_tree
    rw [pySet_idem]
  · unfold _del_except_methods_in_name_tree
    rw [pySet_idem]
  · intro h
    unfold _del_except_classes_in_name_tree
    rw [pySet_absorb h]
  · intro h
    unfold _del_except_methods_in_name_tree
    rw [pySet_absorb h]

/-- Witness for C10: excluding `m.C` twice behaves exactly like excluding it
once (the second occurrence raises nothing even though `m.C` is already
gone). -/
theorem c10_witness :
    ("m.C" ∈ ["m.C"]) ∧
    _del_except_classes_in_name_tree [("m", [("C", ["a"]), ("D", ["b"])])]
        (["m.C"] ++ "m.C" :: []) =
      _del_except_classes_in_name_tree [("m", [("C", ["a"]), ("D", ["b"])])]
        (["m.C"] ++ []) :=
  ⟨by decide,
   (c10_except_duplicates [("m", [("C", ["a"]), ("D", ["b"])])] [] ["m.C"] []
      "m.C").2.2.1 (by decide)⟩

end Unishark
